import Mathlib

/-!
Verification of the diff-reviewer core: unified-diff parsing (`parseDiff`,
`parseHunk`), hunk splitting (`splitHunks`), content-based hunk identity
(`fnv1a`, `computeHunkId`, `computeHunkIds`), patch reconstruction
(`buildPatch`) and the review-state engine (`StateManager`).

The embedding is char-level: a JavaScript string is modelled as a Lean
`String` (a list of `Char`), `String.prototype.startsWith` as prefix test
on the char list, `slice(n)` as dropping `n` chars, and `split('\n')` as
splitting the char list at `'\n'`.  `String.prototype.charCodeAt`, used by
the FNV-1a hash, is modelled exactly by expanding each char into its
UTF-16 code units.  JavaScript numbers are modelled as `Int` (all the
arithmetic the code performs is small-integer arithmetic); `Map` is
modelled as an insertion-ordered association list with JavaScript `Map`
semantics (`set` updates in place, otherwise appends).

Loops that consume a variable number of list elements per iteration take
an explicit fuel argument; every wrapper passes the length of the list,
which is sufficient because every iteration consumes at least one element
and one unit of fuel (the fuel-sufficiency hypotheses appear in the
lemmas).  This keeps every definition structurally recursive and hence
kernel-computable on concrete inputs.
-/

/-! ## Char-level string primitives (JavaScript semantics) -/

/-- JavaScript `s.startsWith(p)`: `p` is a prefix of `s`. -/
def strStartsWith (s p : String) : Bool :=
  p.data.isPrefixOf s.data

/-- JavaScript `s.slice(n)` for nonnegative `n`: drop the first `n` chars. -/
def strDrop (s : String) (n : Nat) : String :=
  String.mk (s.data.drop n)

/-- JavaScript `s.split('\n')` on the char list: split at every newline. -/
def splitNl : List Char → List (List Char)
  | [] => [[]]
  | c :: cs =>
    match splitNl cs with
    | [] => [[]]
    | g :: gs => if c = '\n' then [] :: g :: gs else (c :: g) :: gs

/-- JavaScript `diffText.split('\n')` producing strings. -/
def jsSplitLines (s : String) : List String :=
  (splitNl s.data).map String.mk

/-- JavaScript `lines.join('\n')` on the char level. -/
def joinNlData : List String → List Char
  | [] => []
  | [x] => x.data
  | x :: y :: rest => x.data ++ '\n' :: joinNlData (y :: rest)

/-- The remainder of `cs` after the first occurrence of `pat`
(JavaScript `indexOf` + `slice(idx + pat.length)`), or `none` when
`pat` does not occur. -/
def afterFirst (pat : List Char) : List Char → Option (List Char)
  | [] => if pat.isPrefixOf ([] : List Char) then some [] else none
  | c :: cs =>
    if pat.isPrefixOf (c :: cs) then some ((c :: cs).drop pat.length)
    else afterFirst pat cs

/-! ## Digit strings (JavaScript `Number.prototype.toString`) -/

/-- Base-`b` digits of `n`, least significant first; the first argument is
fuel (`n` itself is always enough fuel since `b ≥ 2`). -/
def digitsAux (b : Nat) : Nat → Nat → List Nat
  | 0, _ => []
  | _ + 1, 0 => []
  | fuel + 1, n => n % b :: digitsAux b fuel (n / b)

/-- Decimal string of a natural number, as JavaScript renders it. -/
def natToDecStr (n : Nat) : String :=
  if n = 0 then "0"
  else String.mk (((digitsAux 10 n n).reverse).map Nat.digitChar)

/-- Decimal string of an integer, as JavaScript renders it in a template
literal. -/
def intToDecStr (i : Int) : String :=
  if i < 0 then "-" ++ natToDecStr i.natAbs else natToDecStr i.toNat

/-- Lowercase-hex string of `n` padded on the left with `'0'` to 8 chars:
JavaScript `n.toString(16).padStart(8, '0')` for `n < 2^32`. -/
def hexPad8 (n : Nat) : String :=
  let ds : List Char :=
    if n = 0 then ['0'] else ((digitsAux 16 n n).reverse).map Nat.digitChar
  String.mk (List.replicate (8 - ds.length) '0' ++ ds)

/-! ## Data model (src/types.ts) -/

/-- The `type` field of a `DiffLine`. -/
inductive DiffLineType where
  | add
  | remove
  | context
deriving DecidableEq

/-- `DiffLine`: one classified body line of a hunk. -/
structure DiffLine where
  type : DiffLineType
  content : String
deriving DecidableEq

/-- `DiffHunk`: a contiguous change region of one file. -/
structure DiffHunk where
  oldStart : Int
  oldCount : Int
  newStart : Int
  newCount : Int
  header : String
  lines : List DiffLine
  rawLines : List String
  id : Option String
deriving DecidableEq

/-- `DiffFile`: one file record of a parsed diff. -/
structure DiffFile where
  oldPath : String
  newPath : String
  hunks : List DiffHunk
  isBinary : Bool
  diffHeader : List String
deriving DecidableEq

/-- `HunkStatus`. -/
inductive HunkStatus where
  | pending
  | approved
  | rejected
deriving DecidableEq

/-- The `type` tag of an `UndoEntry`. -/
inductive UndoType where
  | approve
  | reject
deriving DecidableEq

/-- `UndoEntry`: one record of the undo stack. -/
structure UndoEntry where
  type : UndoType
  filePath : String
  hunkId : String
  forwardPatch : Option String
deriving DecidableEq

/-! ## JavaScript `Map` as an insertion-ordered association list -/

/-- `Map.prototype.get`. -/
def mapGet {α : Type} (k : String) (m : List (String × α)) : Option α :=
  (m.find? (fun e => e.1 = k)).map (fun e => e.2)

/-- `Map.prototype.set`: update in place when the key is present,
otherwise append. -/
def mapSet {α : Type} (k : String) (v : α) (m : List (String × α)) :
    List (String × α) :=
  if m.any (fun e => e.1 = k) then
    m.map (fun e => if e.1 = k then (k, v) else e)
  else m ++ [(k, v)]

/-- `Map.prototype.delete` (ignoring the returned Boolean). -/
def mapDelete {α : Type} (k : String) (m : List (String × α)) :
    List (String × α) :=
  m.filter (fun e => ¬ (e.1 = k))

/-! ## The diff parser (src/git/diffParser.ts)

The parser is an index-based scan over the array `diffText.split('\n')`;
every loop only moves the index forward, so it is modelled by functions on
the suffix of the line list starting at the current index.  The one read
behind the index, `lines[i - 1]` in the binary-file branch, is modelled by
threading the previously consumed line. -/

/-- Longest prefix of digits together with its decoded value (`parseInt`
on the digit prefix); `none` when the first char is not a digit.  This is
the `(\d+)` piece of the hunk-header regex. -/
def readDigits (cs : List Char) : Option (Nat × List Char) :=
  let ds := cs.takeWhile Char.isDigit
  if ds.isEmpty then none
  else some (ds.foldl (fun a c => 10 * a + (c.toNat - 48)) 0,
             cs.dropWhile Char.isDigit)

/-- `cs` with the literal prefix `pat` removed, or `none`. -/
def stripPfx (pat cs : List Char) : Option (List Char) :=
  if pat.isPrefixOf cs then some (cs.drop pat.length) else none

/-- The regex `/^@@ -(\d+)(?:,(\d+))? \+(\d+)(?:,(\d+))? @@(.*)/` of
`parseHunk`: on success, the four numeric groups (the two counts optional)
and the trailing capture.  The regex is deterministic — after a maximal
digit run the next char decides whether the optional `,(\d+)` group can
match — so a direct left-to-right scan implements it exactly. -/
def matchHunkHeader (s : String) : Option (Nat × Option Nat × Nat × Option Nat × String) :=
  match stripPfx "@@ -".data s.data with
  | none => none
  | some r1 =>
    match readDigits r1 with
    | none => none
    | some (a, r2) =>
      let s2 : Option Nat × List Char :=
        match r2 with
        | ',' :: r =>
          (match readDigits r with
           | some (b, r') => (some b, r')
           | none => (none, ',' :: r))
        | _ => (none, r2)
      match stripPfx " +".data s2.2 with
      | none => none
      | some r3 =>
        match readDigits r3 with
        | none => none
        | some (c, r4) =>
          let s4 : Option Nat × List Char :=
            match r4 with
            | ',' :: r =>
              (match readDigits r with
               | some (d, r') => (some d, r')
               | none => (none, ',' :: r))
            | _ => (none, r4)
          match stripPfx " @@".data s4.2 with
          | none => none
          | some r5 => some (a, s2.1, c, s4.1, String.mk r5)

/-- The body loop of `parseHunk` (lines 112–148): consume classified body
lines, accumulating `hunk.lines` and `hunk.rawLines`, and return the
unconsumed suffix.  "`line === '' && i === lines.length - 1`" becomes
"the line is empty and it is the last one". -/
def parseHunkBody (ls : List String) (accL : List DiffLine) (accR : List String) :
    List DiffLine × List String × List String :=
  match ls with
  | [] => (accL, accR, [])
  | line :: rest =>
    if strStartsWith line "@@" || strStartsWith line "diff --git " then
      (accL, accR, line :: rest)
    else if strStartsWith line "\\ " then
      parseHunkBody rest accL (accR ++ [line])
    else if strStartsWith line "+" then
      parseHunkBody rest (accL ++ [⟨.add, strDrop line 1⟩]) (accR ++ [line])
    else if strStartsWith line "-" then
      parseHunkBody rest (accL ++ [⟨.remove, strDrop line 1⟩]) (accR ++ [line])
    else if strStartsWith line " " || line = "" then
      if line = "" && rest.isEmpty then
        (accL, accR, line :: rest)
      else
        parseHunkBody rest (accL ++ [⟨.context, strDrop line 1⟩]) (accR ++ [line])
    else
      (accL, accR, line :: rest)

/-- `parseHunk`: the input list starts at the `@@` header line.  A header
that fails the regex yields the degenerate zero-span hunk holding only the
literal header line (`nextIndex = startIndex + 1`, i.e. only the header is
consumed). -/
def parseHunk (ls : List String) : DiffHunk × List String :=
  match ls with
  | [] => (⟨0, 0, 0, 0, "", [], [""], none⟩, [])
  | headerLine :: rest =>
    match matchHunkHeader headerLine with
    | none =>
      (⟨0, 0, 0, 0, headerLine, [], [headerLine], none⟩, rest)
    | some (a, b, c, d, _) =>
      let r := parseHunkBody rest [] [headerLine]
      (⟨(a : Int), ((b.getD 1 : Nat) : Int), (c : Int), ((d.getD 1 : Nat) : Int),
        headerLine, r.1, r.2.1, none⟩, r.2.2)

/-- The extended-header skip loop of `parseDiff` (lines 31–39): consume
lines until end of input or a `diff --git `/`---`/`@@`/`Binary` line,
returning the last consumed line (for the `lines[i - 1]` read of the
binary branch) and the unconsumed suffix. -/
def skipExtHeaders (prev : String) : List String → String × List String
  | [] => (prev, [])
  | l :: rest =>
    if strStartsWith l "diff --git " || strStartsWith l "---" ||
       strStartsWith l "@@" || strStartsWith l "Binary" then
      (prev, l :: rest)
    else skipExtHeaders l rest

/-- `line.slice(idx + prefix.length)` after `indexOf(prefix)`, or `''`
when the prefix does not occur (`extractPath`). -/
def extractPath (line : String) (pfx : String) : String :=
  match afterFirst pfx.data line.data with
  | some r => String.mk r
  | none => ""

/-- The hunk loop of `parseDiff` (lines 66–74): until end of input or the
next `diff --git ` line, parse each `@@` line as a hunk and skip anything
else.  Fueled; one unit of fuel per iteration and every iteration consumes
at least one line, so fuel ≥ length suffices. -/
def parseFileHunks : Nat → List String → List DiffHunk × List String
  | _, [] => ([], [])
  | 0, ls => ([], ls)
  | fuel + 1, l :: rest =>
    if strStartsWith l "diff --git " then ([], l :: rest)
    else if strStartsWith l "@@" then
      let p := parseHunk (l :: rest)
      let q := parseFileHunks fuel p.2
      (p.1 :: q.1, q.2)
    else parseFileHunks fuel rest

/-- One `diff --git` section: everything `parseDiff` does between finding
the marker line (already consumed; it is the `prev` seed of the skip loop)
and pushing the file record. -/
def parseDiffFile (fuel : Nat) (gitLine : String) (rest : List String) :
    DiffFile × List String :=
  let sk := skipExtHeaders gitLine rest
  match sk.2 with
  | [] => (⟨"", "", [], false, []⟩, [])
  | b :: r2 =>
    if strStartsWith b "Binary" then
      (⟨extractPath sk.1 "a/", extractPath sk.1 "b/", [], true, []⟩, r2)
    else
      let s1 : List String × String × List String :=
        if strStartsWith b "---" then
          ([b], if strStartsWith b "--- a/" then strDrop b 6 else strDrop b 4, r2)
        else ([], "", b :: r2)
      let s2 : List String × String × List String :=
        match s1.2.2 with
        | [] => ([], "", [])
        | p :: r3 =>
          if strStartsWith p "+++" then
            ([p], if strStartsWith p "+++ b/" then strDrop p 6 else strDrop p 4, r3)
          else ([], "", p :: r3)
      let hk := parseFileHunks fuel s2.2.2
      (⟨s1.2.1, s2.2.1, hk.1, false, s1.1 ++ s2.1⟩, hk.2)

/-- The outer file loop of `parseDiff`: scan for `diff --git ` markers and
parse one file section per marker.  Fueled as `parseFileHunks`. -/
def parseDiffLoop : Nat → List String → List DiffFile
  | _, [] => []
  | 0, _ => []
  | fuel + 1, l :: rest =>
    if strStartsWith l "diff --git " then
      let p := parseDiffFile fuel l rest
      p.1 :: parseDiffLoop fuel p.2
    else parseDiffLoop fuel rest

/-- `parseDiff`: split the text at newlines and run the file loop.  The
fuel is the number of lines, which all the loops together never exceed. -/
def parseDiff (diffText : String) : List DiffFile :=
  let lines := jsSplitLines diffText
  parseDiffLoop lines.length lines

/-! ## Hunk splitting (src/git/diffParser.ts, `splitHunks`) -/

/-- The `@@ -a,b +c,d @@` template literal of `splitHunks`. -/
def mkHunkHeader (a b c d : Int) : String :=
  "@@ -" ++ intToDecStr a ++ "," ++ intToDecStr b ++ " +" ++
    intToDecStr c ++ "," ++ intToDecStr d ++ " @@"

/-- The inner group-collecting loop of `splitHunks` (lines 182–196):
consume the maximal run of non-context lines, returning
`(groupOldCount, groupNewCount, groupLines, groupRawLines, rest)`. -/
def collectGroup : List DiffLine → Int × Int × List DiffLine × List String × List DiffLine
  | [] => (0, 0, [], [], [])
  | l :: rest =>
    if l.type = .context then (0, 0, [], [], l :: rest)
    else
      let r := collectGroup rest
      if l.type = .remove then
        (r.1 + 1, r.2.1, l :: r.2.2.1,
         String.mk ('-' :: l.content.data) :: r.2.2.2.1, r.2.2.2.2)
      else
        (r.1, r.2.1 + 1, l :: r.2.2.1,
         String.mk ('+' :: l.content.data) :: r.2.2.2.1, r.2.2.2.2)

/-- The per-hunk while loop of `splitHunks` (lines 165–214), walking the
hunk's lines with the old/new line cursors.  Fueled; every iteration
consumes at least one line. -/
def splitLoop : Nat → List DiffLine → Int → Int → List DiffHunk
  | _, [], _, _ => []
  | 0, _, _, _ => []
  | fuel + 1, l :: rest, oldLine, newLine =>
    if l.type = .context then splitLoop fuel rest (oldLine + 1) (newLine + 1)
    else
      let g := collectGroup (l :: rest)
      let patchOldStart := if g.1 = 0 then oldLine - 1 else oldLine
      let patchNewStart := if g.2.1 = 0 then newLine - 1 else newLine
      let header := mkHunkHeader patchOldStart g.1 patchNewStart g.2.1
      ⟨oldLine, g.1, newLine, g.2.1, header, g.2.2.1, header :: g.2.2.2.1, none⟩ ::
        splitLoop fuel g.2.2.2.2 (oldLine + g.1) (newLine + g.2.1)

/-- `splitHunks`: one result list; each hunk contributes the sub-hunks of
its own group loop, in order. -/
def splitHunks (hunks : List DiffHunk) : List DiffHunk :=
  (hunks.map (fun h => splitLoop h.lines.length h.lines h.oldStart h.newStart)).flatten

/-! ## Content-based hunk identity (src/git/diffParser.ts) -/

/-- The UTF-16 code units of a char — what `charCodeAt` walks over. -/
def utf16Units (c : Char) : List Nat :=
  if c.toNat < 0x10000 then [c.toNat]
  else [0xD800 + (c.toNat - 0x10000) / 0x400, 0xDC00 + (c.toNat - 0x10000) % 0x400]

/-- `fnv1a`: 32-bit FNV-1a over the UTF-16 code units (`charCodeAt`),
rendered as an 8-char lowercase-hex string.  `Math.imul` is multiplication
mod 2^32 (signedness is erased by the final `>>> 0`). -/
def fnv1a (str : String) : String :=
  hexPad8 (((str.data.map utf16Units).flatten).foldl
    (fun h c => ((h ^^^ c) * 0x01000193) % 4294967296) 0x811c9dc5)

/-- The rendering of a `DiffLine.type` in a template literal. -/
def DiffLineType.str : DiffLineType → String
  | .add => "add"
  | .remove => "remove"
  | .context => "context"

/-- `computeHunkId`: hash of the file path and the `type:content` lines of
only the add/remove lines, newline-joined, NUL-separated from the path. -/
def computeHunkId (filePath : String) (hunk : DiffHunk) : String :=
  let changedContent := String.mk (joinNlData
    ((hunk.lines.filter (fun l => l.type = .add ∨ l.type = .remove)).map
      (fun l => l.type.str ++ ":" ++ l.content)))
  fnv1a (filePath ++ String.mk ('\x00' :: changedContent.data))

/-- `computeHunkIds`: first pass appends `-2`, `-3`, … to the second and
later occurrences of a base hash; second pass relabels an id whose
occurrence count in `seen` exceeds 1 — i.e. exactly the bare first
occurrences of duplicated hashes — with `-1`.  (`seen.get(id)!` on an
absent id is `undefined`, and `undefined > 1` is false.) -/
def hunkIdsFold (filePath : String) :
    List DiffHunk → List String × List (String × Nat) → List String × List (String × Nat)
  | [], acc => acc
  | hunk :: rest, acc =>
    let baseId := computeHunkId filePath hunk
    let count := (mapGet baseId acc.2).getD 0 + 1
    hunkIdsFold filePath rest
      (acc.1 ++ [if count = 1 then baseId else baseId ++ "-" ++ natToDecStr count],
       mapSet baseId count acc.2)

/-- `computeHunkIds`, continued: run the first pass, then the retroactive
relabelling pass. -/
def computeHunkIds (filePath : String) (hunks : List DiffHunk) : List String :=
  let p := hunkIdsFold filePath hunks ([], [])
  p.1.map (fun id => if 1 < (mapGet id p.2).getD 0 then id ++ "-1" else id)

/-! ## The review-state engine (src/state/stateManager.ts)

The engine's mutable fields become a state record; the persisted blob is
modelled as a field always rewritten by `persist` (the variant of the
constructor that received a storage).  The two external suspension points,
`git.applyReverse`/`git.applyForward` and `git.getFileDiff`, are modelled
by returning the list of patch texts passed to apply calls and by taking
the fresh diff result as an argument.  The undo stack's top is the head of
the list (`push` conses, `pop` uncovers the head). -/

/-- The state of a `StateManager`. -/
structure SMState where
  statuses : List (String × List (String × HunkStatus))
  undoStack : List UndoEntry
  storage : List (String × List (String × HunkStatus))
deriving DecidableEq

/-- The blob `persist` writes: per file the `approved` entries only, and
only files having at least one. -/
def persistData (sts : List (String × List (String × HunkStatus))) :
    List (String × List (String × HunkStatus)) :=
  (sts.map (fun e => (e.1, e.2.filter (fun x => x.2 = .approved)))).filter
    (fun e => ¬ e.2.isEmpty)

/-- `persist()`. -/
def persist (s : SMState) : SMState :=
  { s with storage := persistData s.statuses }

/-- `file.newPath || file.oldPath`. -/
def filePathOf (file : DiffFile) : String :=
  if file.newPath = "" then file.oldPath else file.newPath

/-- `buildPatch` (stateManager.ts lines 298–309). -/
def buildPatch (file : DiffFile) (hunk : DiffHunk) : String :=
  String.mk (joinNlData
    (("--- a/" ++ (if file.oldPath = "" then file.newPath else file.oldPath)) ::
     ("+++ b/" ++ (if file.newPath = "" then file.oldPath else file.newPath)) ::
     hunk.rawLines) ++ ['\n'])

/-- The first branch of `syncStatuses` (no map yet, or an empty one):
seed every present id as `pending` and return an all-`pending` array. -/
def syncFresh (s : SMState) (file : DiffFile) (path : String) :
    SMState × List HunkStatus :=
  let map := file.hunks.foldl
    (fun acc h =>
      match h.id with
      | some hid => mapSet hid .pending acc
      | none => acc) []
  (persist { s with statuses := mapSet path map s.statuses },
   file.hunks.map (fun _ => .pending))

/-- `syncStatuses(file)`: rebuild the file's status map from the hunk ids
present in `file`, then persist; returns the new state and the ordered
status array. -/
def syncStatuses (s : SMState) (file : DiffFile) : SMState × List HunkStatus :=
  let path := filePathOf file
  let existing := mapGet path s.statuses
  match existing with
  | none => syncFresh s file path
  | some m =>
    if m.isEmpty then syncFresh s file path
    else
      let newMap := file.hunks.foldl
        (fun acc h =>
          match h.id with
          | some hid => mapSet hid ((mapGet hid m).getD .pending) acc
          | none => acc) []
      (persist { s with statuses := mapSet path newMap s.statuses },
       file.hunks.map (fun h =>
         match h.id with
         | some hid => (mapGet hid newMap).getD .pending
         | none => .pending))

/-- `approve(filePath, hunkId)`. -/
def approve (s : SMState) (filePath hunkId : String) : SMState :=
  match mapGet filePath s.statuses with
  | none => s
  | some m =>
    if (mapGet hunkId m).isNone then s
    else
      persist { s with
        statuses := mapSet filePath (mapSet hunkId .approved m) s.statuses,
        undoStack := ⟨.approve, filePath, hunkId, none⟩ :: s.undoStack }

/-- `approveAll(filePath, file)`: one pass over `file.hunks`, approving
each pending id and pushing one undo record per approval. -/
def approveAll (s : SMState) (filePath : String) (file : DiffFile) : SMState :=
  match mapGet filePath s.statuses with
  | none => s
  | some m =>
    let r := file.hunks.foldl
      (fun (acc : List (String × HunkStatus) × List UndoEntry) h =>
        match h.id with
        | some hid =>
          if mapGet hid acc.1 = some .pending then
            (mapSet hid .approved acc.1, ⟨.approve, filePath, hid, none⟩ :: acc.2)
          else acc
        | none => acc) (m, s.undoStack)
    persist { s with statuses := mapSet filePath r.1 s.statuses, undoStack := r.2 }

/-- `reject(filePath, hunkId, file)`: the fresh single-file diff that
`git.getFileDiff` would return is passed in as `fresh`; the returned
`List String` holds the patch texts passed to `git.applyReverse`. -/
def reject (s : SMState) (filePath hunkId : String) (file : DiffFile)
    (fresh : List DiffFile) : SMState × Option DiffFile × List String :=
  match file.hunks.find? (fun h => h.id = some hunkId) with
  | none => (s, none, [])
  | some hunk =>
    let patch := buildPatch file hunk
    let s1 := { s with undoStack := ⟨.reject, filePath, hunkId, some patch⟩ :: s.undoStack }
    let s2 :=
      match mapGet filePath s1.statuses with
      | some m => { s1 with statuses := mapSet filePath (mapDelete hunkId m) s1.statuses }
      | none => s1
    match fresh with
    | [] =>
      (persist { s2 with statuses := mapDelete filePath s2.statuses }, none, [patch])
    | freshFile :: _ =>
      ((syncStatuses s2 freshFile).1, some freshFile, [patch])

/-- Remove the first (topmost) approve record for `(filePath, hunkId)`. -/
def removeFirstApprove : List UndoEntry → String → String → List UndoEntry
  | [], _, _ => []
  | e :: rest, filePath, hunkId =>
    if e.type = .approve ∧ e.filePath = filePath ∧ e.hunkId = hunkId then rest
    else e :: removeFirstApprove rest filePath hunkId

/-- `undoApprove(filePath, hunkId)`: reset one approved id to pending and
splice the first matching approve record (searched from the top of the
stack) out of the undo stack. -/
def undoApprove (s : SMState) (filePath hunkId : String) : SMState :=
  match mapGet filePath s.statuses with
  | none => s
  | some m =>
    if mapGet hunkId m = some .approved then
      persist { s with
        statuses := mapSet filePath (mapSet hunkId .pending m) s.statuses,
        undoStack := removeFirstApprove s.undoStack filePath hunkId }
    else s

/-- `undo()`: pop the top entry; approve entries reset the id to pending
when it still exists, reject entries re-apply the stored forward patch
(the returned `List String` holds the texts passed to
`git.applyForward`; `entry.forwardPatch` is truthy iff it is a nonempty
string). -/
def undo (s : SMState) : SMState × Option (String × UndoType) × List String :=
  match s.undoStack with
  | [] => (s, none, [])
  | e :: rest =>
    let s1 := { s with undoStack := rest }
    if e.type = .approve then
      let s2 :=
        match mapGet e.filePath s1.statuses with
        | some m =>
          if (mapGet e.hunkId m).isSome then
            { s1 with statuses := mapSet e.filePath (mapSet e.hunkId .pending m) s1.statuses }
          else s1
        | none => s1
      (persist s2, some (e.filePath, e.type), [])
    else
      match e.forwardPatch with
      | some p =>
        if p = "" then (persist s1, some (e.filePath, e.type), [])
        else (persist s1, some (e.filePath, e.type), [p])
      | none => (persist s1, some (e.filePath, e.type), [])

/-- `clear()`. -/
def clear (s : SMState) : SMState :=
  persist { s with statuses := [], undoStack := [] }

/-- `pruneCommittedFiles(currentDiffFiles)`: drop state for file paths
absent from the latest diff; persist only when something was dropped. -/
def pruneCommittedFiles (s : SMState) (currentDiffFiles : List DiffFile) : SMState :=
  let currentPaths := currentDiffFiles.map filePathOf
  let kept := s.statuses.filter (fun e => currentPaths.contains e.1)
  let changed := s.statuses.any (fun e => ¬ currentPaths.contains e.1)
  if changed then persist { s with statuses := kept }
  else { s with statuses := kept }

/-! ## Reference definitions written from the specification

`changedRuns` follows the spec's words for C1 — "each sub-hunk holds
exactly one maximal contiguous run of non-context lines" — and is compared
with what `splitHunks` emits. -/

/-- Maximal contiguous runs of non-context lines, in order (fueled like
`splitLoop`). -/
def changedRuns : Nat → List DiffLine → List (List DiffLine)
  | _, [] => []
  | 0, _ => []
  | fuel + 1, l :: rest =>
    if l.type = .context then changedRuns fuel rest
    else
      (l :: rest).takeWhile (fun x => ¬ x.type = .context) ::
        changedRuns fuel ((l :: rest).dropWhile (fun x => ¬ x.type = .context))

/-- The maximal runs of changed lines of a line list. -/
def changedRunsOf (ls : List DiffLine) : List (List DiffLine) :=
  changedRuns ls.length ls

/-! ## Proof-side characterisations -/

/-- The first pass of `computeHunkIds` expressed over the base-hash list:
the occurrence count of each hash among `pre ++ processed-so-far` decides
the suffix. -/
def firstPass : List String → List String → List String
  | _, [] => []
  | pre, b :: bs =>
    (if pre.count b + 1 = 1 then b else b ++ "-" ++ natToDecStr (pre.count b + 1)) ::
      firstPass (pre ++ [b]) bs

/-- The identifier list `computeHunkIds` produces, described positionally:
a hash occurring once stays bare; the `k`-th occurrence of a duplicated
hash gets suffix `-k` (the first occurrence included, as `-1`). -/
def idsSpec (bs : List String) : List String :=
  (List.range bs.length).map (fun i =>
    if bs.count (bs.getD i "") ≤ 1 then bs.getD i ""
    else bs.getD i "" ++ "-" ++ natToDecStr ((bs.take (i + 1)).count (bs.getD i "")))

/-- The shape of a parsed hunk body: `raw` is re-classifiable, line by
line, into exactly `lines` — the relation `parseHunkBody` both produces
and consumes. -/
inductive BodyRel : List String → List DiffLine → Prop where
  | nil : BodyRel [] []
  | noNewline (r : String) (raw : List String) (lines : List DiffLine) :
      strStartsWith r "\\ " = true → BodyRel raw lines → BodyRel (r :: raw) lines
  | add (r : String) (raw : List String) (lines : List DiffLine) :
      strStartsWith r "\\ " = false → strStartsWith r "+" = true →
      BodyRel raw lines → BodyRel (r :: raw) (⟨.add, strDrop r 1⟩ :: lines)
  | remove (r : String) (raw : List String) (lines : List DiffLine) :
      strStartsWith r "\\ " = false → strStartsWith r "+" = false →
      strStartsWith r "-" = true →
      BodyRel raw lines → BodyRel (r :: raw) (⟨.remove, strDrop r 1⟩ :: lines)
  | context (r : String) (raw : List String) (lines : List DiffLine) :
      strStartsWith r "\\ " = false → strStartsWith r "+" = false →
      strStartsWith r "-" = false → (strStartsWith r " " = true ∨ r = "") →
      BodyRel raw lines → BodyRel (r :: raw) (⟨.context, strDrop r 1⟩ :: lines)

/-- A string without newline chars (every line produced by
`split('\n')` is one). -/
def noNl (s : String) : Prop := '\n' ∉ s.data

/-- The storage invariant of the state engine: the persisted blob is the
`persistData` image of the in-memory statuses. -/
def SMInv (s : SMState) : Prop := s.storage = persistData s.statuses

/-- The observable status lookup: file map, then hunk id. -/
def getStatus (s : SMState) (p id : String) : Option HunkStatus :=
  (mapGet p s.statuses).bind (fun m => mapGet id m)

/-! # Lemmas and claim theorems -/

/-! ## Association-list map lemmas -/

theorem mapGet_nil {α : Type} (k : String) : mapGet (α := α) k [] = none := rfl

theorem mapGet_cons {α : Type} (k : String) (e : String × α) (m : List (String × α)) :
    mapGet k (e :: m) = if e.1 = k then some e.2 else mapGet k m := by
  simp only [mapGet, List.find?]
  by_cases h : e.1 = k <;> simp [h]

theorem mapGet_map_update {α : Type} (k k' : String) (v : α) (m : List (String × α)) :
    mapGet k' (m.map (fun e => if e.1 = k then (k, v) else e)) =
      if k' = k then (mapGet k m).map (fun _ => v) else mapGet k' m := by
  induction m with
  | nil => by_cases h : k' = k <;> simp [mapGet_nil, h]
  | cons e rest ih =>
    by_cases he : e.1 = k
    · simp only [List.map_cons, he, if_pos, mapGet_cons]
      by_cases hk : k' = k
      · subst hk; simp [he]
      · have h1 : ¬ (k = k') := fun h => hk h.symm
        have h2 : ¬ (e.1 = k') := he ▸ h1
        simp only [h1, if_false, h2, hk, ih]
    · simp only [List.map_cons, he, if_neg, not_false_iff, mapGet_cons]
      by_cases hk : k' = k
      · subst hk; simp [he, ih]
      · simp [hk, ih]

theorem mapGet_eq_none_of_any_false {α : Type} (k : String) (m : List (String × α))
    (h : m.any (fun e => e.1 = k) = false) : mapGet k m = none := by
  induction m with
  | nil => rfl
  | cons e rest ih =>
    simp only [List.any_cons, Bool.or_eq_false_iff] at h
    have he : ¬ (e.1 = k) := by simpa using h.1
    rw [mapGet_cons, if_neg he]
    exact ih h.2

theorem mapGet_isSome_of_any_true {α : Type} (k : String) (m : List (String × α))
    (h : m.any (fun e => e.1 = k) = true) : ∃ w, mapGet k m = some w := by
  induction m with
  | nil => simp at h
  | cons e rest ih =>
    by_cases he : e.1 = k
    · exact ⟨e.2, by rw [mapGet_cons, if_pos he]⟩
    · simp only [List.any_cons, Bool.or_eq_true] at h
      rcases h with h | h
      · exact absurd (by simpa using h) he
      · obtain ⟨w, hw⟩ := ih h
        exact ⟨w, by rw [mapGet_cons, if_neg he, hw]⟩

theorem mapGet_mapSet {α : Type} (k k' : String) (v : α) (m : List (String × α)) :
    mapGet k' (mapSet k v m) = if k' = k then some v else mapGet k' m := by
  unfold mapSet
  by_cases hany : m.any (fun e => e.1 = k) = true
  · rw [if_pos hany, mapGet_map_update]
    by_cases hk : k' = k
    · obtain ⟨w, hw⟩ := mapGet_isSome_of_any_true k m hany
      simp [hk, hw]
    · simp [hk]
  · rw [if_neg hany]
    by_cases hk : k' = k
    · subst hk
      have hnone := mapGet_eq_none_of_any_false k' m (eq_false_of_ne_true hany)
      simp only [mapGet, List.find?_append]
      simp only [mapGet] at hnone
      cases hfind : m.find? (fun e => decide (e.1 = k')) with
      | none => simp [hfind, Option.or, List.find?]
      | some w => rw [hfind] at hnone; simp at hnone
    · simp only [mapGet, List.find?_append]
      cases hfind : m.find? (fun e => decide (e.1 = k')) with
      | none =>
        have h2 : ¬ ((k, v).1 = k') := fun h => hk h.symm
        simp [hfind, Option.or, List.find?, h2, hk]
      | some w => simp [hfind, Option.or, hk]

theorem mapGet_mapSet_self {α : Type} (k : String) (v : α) (m : List (String × α)) :
    mapGet k (mapSet k v m) = some v := by
  rw [mapGet_mapSet]; simp

theorem mapGet_mapSet_ne {α : Type} {k k' : String} (v : α) (m : List (String × α))
    (h : k' ≠ k) : mapGet k' (mapSet k v m) = mapGet k' m := by
  rw [mapGet_mapSet]; simp [h]

/-! ## Claim C5: malformed hunk headers degrade, parsing is total -/

/-- Claim C5: `parseDiff` is total by construction (it is a Lean function
on arbitrary strings), and a line starting with `@@` that fails the
hunk-header grammar makes `parseHunk` produce a degenerate zero-span hunk
(all four numbers 0) whose `rawLines` hold only the literal line and whose
`lines` are empty, consuming only that line — the parse is not aborted. -/
theorem C5_parseHunk_degenerate (l : String) (rest : List String)
    (_hat : strStartsWith l "@@" = true) (hm : matchHunkHeader l = none) :
    parseHunk (l :: rest) = (⟨0, 0, 0, 0, l, [], [l], none⟩, rest) := by
  simp [parseHunk, hm]

/-- Witness for C5 at the concrete malformed header `"@@ bogus"`. -/
theorem C5_witness :
    strStartsWith "@@ bogus" "@@" = true ∧ matchHunkHeader "@@ bogus" = none ∧
      parseHunk ["@@ bogus", "+x"] =
        (⟨0, 0, 0, 0, "@@ bogus", [], ["@@ bogus"], none⟩, ["+x"]) :=
  ⟨by decide, by decide, C5_parseHunk_degenerate "@@ bogus" ["+x"] (by decide) (by decide)⟩

/-! ## Hunk splitting: lemmas for C1 and C6 -/

theorem collectGroup_spec (ls : List DiffLine) :
    collectGroup ls =
      ((((ls.takeWhile (fun x => ¬ x.type = .context)).filter
          (fun l => l.type = .remove)).length : Int),
       (((ls.takeWhile (fun x => ¬ x.type = .context)).filter
          (fun l => l.type = .add)).length : Int),
       ls.takeWhile (fun x => ¬ x.type = .context),
       (ls.takeWhile (fun x => ¬ x.type = .context)).map
         (fun l => String.mk ((if l.type = .remove then '-' else '+') :: l.content.data)),
       ls.dropWhile (fun x => ¬ x.type = .context)) := by
  induction ls with
  | nil => rfl
  | cons l rest ih =>
    by_cases hc : l.type = .context
    · simp [collectGroup, hc, List.takeWhile_cons, List.dropWhile_cons]
    · by_cases hr : l.type = .remove
      · simp [collectGroup, hc, hr, List.takeWhile_cons, List.dropWhile_cons, ih,
          List.filter_cons]
      · have ha : l.type = .add := by
          cases h : l.type <;> simp_all
        simp [collectGroup, hc, hr, ha, List.takeWhile_cons, List.dropWhile_cons, ih,
          List.filter_cons]

theorem splitLoop_map_lines (fuel : Nat) :
    ∀ (ls : List DiffLine) (o n : Int), ls.length ≤ fuel →
      (splitLoop fuel ls o n).map (fun g => g.lines) = changedRuns fuel ls := by
  induction fuel with
  | zero =>
    intro ls o n hlen
    have : ls = [] := List.eq_nil_of_length_eq_zero (Nat.le_zero.mp hlen)
    subst this
    rfl
  | succ fuel ih =>
    intro ls o n hlen
    cases ls with
    | nil => rfl
    | cons l rest =>
      by_cases hc : l.type = .context
      · simp only [splitLoop, changedRuns, hc, if_pos]
        exact ih rest _ _ (by simpa using hlen)
      · have hdrop : ((l :: rest).dropWhile (fun x => ¬ x.type = .context)).length ≤ fuel := by
          have h1 : (l :: rest).dropWhile (fun x => ¬ x.type = .context) =
              rest.dropWhile (fun x => ¬ x.type = .context) := by
            rw [List.dropWhile_cons]; simp [hc]
          rw [h1]
          exact le_trans ((List.dropWhile_sublist _).length_le)
            (by simpa using hlen)
        simp only [splitLoop, changedRuns, hc, if_neg, not_false_iff, List.map_cons,
          collectGroup_spec]
        exact congrArg _ (ih _ _ _ hdrop)

theorem filter_takeWhile_self {α : Type} (p : α → Bool) (l : List α) :
    (l.takeWhile p).filter p = l.takeWhile p :=
  List.filter_eq_self.mpr (fun _ ha => List.mem_takeWhile_imp ha)

theorem changedRuns_flatten (fuel : Nat) :
    ∀ ls : List DiffLine, ls.length ≤ fuel →
      (changedRuns fuel ls).flatten = ls.filter (fun x => ¬ x.type = .context) := by
  induction fuel with
  | zero =>
    intro ls hlen
    have : ls = [] := List.eq_nil_of_length_eq_zero (Nat.le_zero.mp hlen)
    subst this
    rfl
  | succ fuel ih =>
    intro ls hlen
    cases ls with
    | nil => rfl
    | cons l rest =>
      by_cases hc : l.type = .context
      · simp only [changedRuns, hc, if_pos, List.filter_cons]
        rw [ih rest (by simpa using hlen)]
        simp [hc]
      · have hdrop : ((l :: rest).dropWhile (fun x => ¬ x.type = .context)).length ≤ fuel := by
          have h1 : (l :: rest).dropWhile (fun x => ¬ x.type = .context) =
              rest.dropWhile (fun x => ¬ x.type = .context) := by
            rw [List.dropWhile_cons]; simp [hc]
          rw [h1]
          exact le_trans ((List.dropWhile_sublist _).length_le)
            (by simpa using hlen)
        simp only [changedRuns, hc, if_neg, not_false_iff, List.flatten_cons]
        rw [ih _ hdrop]
        have hsplit := congrArg
          (List.filter (fun x => decide (¬ x.type = DiffLineType.context)))
          (List.takeWhile_append_dropWhile
            (fun x => decide (¬ x.type = DiffLineType.context)) (l :: rest))
        rw [List.filter_append, filter_takeWhile_self] at hsplit
        exact hsplit

/-- Claim C1: per hunk, `splitHunks` emits exactly the maximal contiguous
runs of non-context lines, in order (`changedRunsOf`); consequently the
concatenation of all sub-hunks' add/remove lines equals the hunk's
add/remove lines, in order — nothing dropped, nothing duplicated. -/
theorem C1_split_exact_runs (h : DiffHunk) :
    (splitHunks [h]).map (fun g => g.lines) = changedRunsOf h.lines ∧
    ((splitHunks [h]).map (fun g => g.lines)).flatten =
      h.lines.filter (fun l => l.type = .add ∨ l.type = .remove) := by
  have hmain : (splitHunks [h]).map (fun g => g.lines) =
      changedRuns h.lines.length h.lines := by
    have := splitLoop_map_lines h.lines.length h.lines h.oldStart h.newStart le_rfl
    simpa [splitHunks] using this
  refine ⟨hmain, ?_⟩
  rw [hmain, changedRuns_flatten _ _ le_rfl]
  refine List.filter_congr ?_
  intro x _
  cases hx : x.type <;> simp [hx]

theorem filter_add_remove_length (gl : List DiffLine)
    (hall : ∀ x ∈ gl, ¬ x.type = .context) :
    (gl.filter (fun l => l.type = .remove)).length +
      (gl.filter (fun l => l.type = .add)).length = gl.length := by
  induction gl with
  | nil => rfl
  | cons x rest ih =>
    have hx := hall x (List.mem_cons_self x rest)
    have hrest := fun y hy => hall y (List.mem_cons_of_mem x hy)
    have hih := ih hrest
    cases ht : x.type with
    | context => exact absurd ht hx
    | add =>
      simp [List.filter_cons, ht]
      omega
    | remove =>
      simp [List.filter_cons, ht]
      omega

theorem splitLoop_header_mem (fuel : Nat) :
    ∀ (ls : List DiffLine) (o n : Int) (g : DiffHunk), g ∈ splitLoop fuel ls o n →
      ¬ (g.oldCount = 0 ∧ g.newCount = 0) ∧
      g.header = mkHunkHeader (if g.oldCount = 0 then g.oldStart - 1 else g.oldStart)
        g.oldCount (if g.newCount = 0 then g.newStart - 1 else g.newStart) g.newCount := by
  induction fuel with
  | zero =>
    intro ls o n g hg
    cases ls <;> simp [splitLoop] at hg
  | succ fuel ih =>
    intro ls o n g hg
    cases ls with
    | nil => simp [splitLoop] at hg
    | cons l rest =>
      by_cases hc : l.type = .context
      · rw [splitLoop, if_pos hc] at hg
        exact ih rest _ _ g hg
      · rw [splitLoop, if_neg hc] at hg
        rcases List.mem_cons.mp hg with hhead | htail
        · have hcg := collectGroup_spec (l :: rest)
          have htw : (l :: rest).takeWhile (fun x => ¬ x.type = .context) =
              l :: rest.takeWhile (fun x => ¬ x.type = .context) := by
            rw [List.takeWhile_cons]; simp [hc]
          have hall : ∀ x ∈ (l :: rest).takeWhile (fun x => ¬ x.type = .context),
              ¬ x.type = .context := by
            intro x hx
            simpa using @List.mem_takeWhile_imp _ _ _ _ hx
          have hlen := filter_add_remove_length _ hall
          have hpos : 0 < ((l :: rest).takeWhile (fun x => ¬ x.type = .context)).length := by
            rw [htw]; simp
          have ho := congrArg DiffHunk.oldCount hhead
          have hn := congrArg DiffHunk.newCount hhead
          have hh := congrArg DiffHunk.header hhead
          have hos := congrArg DiffHunk.oldStart hhead
          have hns := congrArg DiffHunk.newStart hhead
          simp only at ho hn hh hos hns
          rw [hcg] at ho hn hh
          simp only at ho hn hh
          constructor
          · intro hzero
            rw [ho] at hzero
            rw [hn] at hzero
            have h1 : (List.filter (fun x => x.type = .remove)
                ((l :: rest).takeWhile (fun x => ¬ x.type = .context))).length = 0 := by
              exact_mod_cast hzero.1
            have h2 : (List.filter (fun x => x.type = .add)
                ((l :: rest).takeWhile (fun x => ¬ x.type = .context))).length = 0 := by
              exact_mod_cast hzero.2
            omega
          · rw [hh, ho, hn, hos, hns]
        · exact ih _ _ _ g htail

/-- Claim C6: every sub-hunk emitted by `splitHunks` with `oldCount = 0`
(pure insertion) carries a header whose old start is the old cursor at run
start minus one (the emitted record's `oldStart` is that cursor value);
symmetrically for `newCount = 0`; and a sub-hunk with both counts nonzero
uses the unadjusted cursor values. -/
theorem C6_header_start_convention (hunks : List DiffHunk) (g : DiffHunk)
    (hg : g ∈ splitHunks hunks) :
    (g.oldCount = 0 → g.header = mkHunkHeader (g.oldStart - 1) 0 g.newStart g.newCount) ∧
    (g.newCount = 0 → g.header = mkHunkHeader g.oldStart g.oldCount (g.newStart - 1) 0) ∧
    (¬ g.oldCount = 0 → ¬ g.newCount = 0 →
      g.header = mkHunkHeader g.oldStart g.oldCount g.newStart g.newCount) := by
  have hmem : ∃ h ∈ hunks, g ∈ splitLoop h.lines.length h.lines h.oldStart h.newStart := by
    rw [splitHunks] at hg
    rcases List.mem_flatten.mp hg with ⟨sub, hsub, hgsub⟩
    rcases List.mem_map.mp hsub with ⟨h, hh, rfl⟩
    exact ⟨h, hh, hgsub⟩
  rcases hmem with ⟨h, _, hgl⟩
  rcases splitLoop_header_mem _ _ _ _ _ hgl with ⟨hne, hh⟩
  refine ⟨?_, ?_, ?_⟩
  · intro hoc
    have hnc : ¬ g.newCount = 0 := fun hnc => hne ⟨hoc, hnc⟩
    rw [hh, if_pos hoc, if_neg hnc, hoc]
  · intro hnc
    have hoc : ¬ g.oldCount = 0 := fun hoc => hne ⟨hoc, hnc⟩
    rw [hh, if_neg hoc, if_pos hnc, hnc]
  · intro hoc hnc
    rw [hh, if_neg hoc, if_neg hnc]

/-- Witness for C6 at a hunk with one context line, a pure insertion and a
trailing context line: the emitted header is `@@ -3,0 +8,1 @@` while the
record's cursor values are 4 and 8. -/
theorem C6_witness :
    (⟨4, 0, 8, 1, "@@ -3,0 +8,1 @@", [⟨.add, "n"⟩], ["@@ -3,0 +8,1 @@", "+n"], none⟩ : DiffHunk) ∈
      splitHunks [⟨3, 2, 7, 3, "h", [⟨.context, "a"⟩, ⟨.add, "n"⟩, ⟨.context, "b"⟩], [], none⟩] ∧
    ((4 : Int) - 1 = 3 ∧
      (⟨4, 0, 8, 1, "@@ -3,0 +8,1 @@", [⟨.add, "n"⟩], ["@@ -3,0 +8,1 @@", "+n"], none⟩ : DiffHunk).header =
        mkHunkHeader 3 0 8 1) := by
  refine ⟨by decide, by decide, ?_⟩
  have := (C6_header_start_convention
    [⟨3, 2, 7, 3, "h", [⟨.context, "a"⟩, ⟨.add, "n"⟩, ⟨.context, "b"⟩], [], none⟩]
    ⟨4, 0, 8, 1, "@@ -3,0 +8,1 @@", [⟨.add, "n"⟩], ["@@ -3,0 +8,1 @@", "+n"], none⟩
    (by decide)).1 (by decide)
  simpa using this

/-! ## Digit strings: injectivity and length bounds -/

theorem digitsAux_val : ∀ (fuel n : Nat), n ≤ fuel →
    (digitsAux 10 fuel n).foldr (fun d acc => d + 10 * acc) 0 = n := by
  intro fuel
  induction fuel with
  | zero =>
    intro n hn
    interval_cases n
    rfl
  | succ fuel ih =>
    intro n hn
    cases n with
    | zero => rfl
    | succ m =>
      have hdiv : (m + 1) / 10 ≤ fuel :=
        Nat.le_of_lt_succ (lt_of_lt_of_le (Nat.div_lt_self (Nat.succ_pos m) (by omega)) hn)
      simp only [digitsAux, List.foldr_cons, ih _ hdiv]
      omega

theorem digitsAux_mem_lt (b : Nat) (hb : 0 < b) :
    ∀ (fuel n d : Nat), d ∈ digitsAux b fuel n → d < b := by
  intro fuel
  induction fuel with
  | zero => intro n d hd; simp [digitsAux] at hd
  | succ fuel ih =>
    intro n d hd
    cases n with
    | zero => simp [digitsAux] at hd
    | succ m =>
      rcases List.mem_cons.mp hd with h | h
      · subst h; exact Nat.mod_lt _ hb
      · exact ih _ _ h

theorem digitsAux_len_le (b : Nat) (hb : 1 < b) :
    ∀ (fuel n k : Nat), n < b ^ k → (digitsAux b fuel n).length ≤ k := by
  intro fuel
  induction fuel with
  | zero => intro n k _; simp [digitsAux]
  | succ fuel ih =>
    intro n k hn
    cases n with
    | zero => simp [digitsAux]
    | succ m =>
      cases k with
      | zero => simp at hn
      | succ k' =>
        have hdiv : (m + 1) / b < b ^ k' := by
          rw [Nat.div_lt_iff_lt_mul (by omega)]
          calc m + 1 < b ^ (k' + 1) := hn
            _ = b ^ k' * b := by ring
        simpa [digitsAux] using ih _ _ hdiv

theorem digitChar_inj16 : ∀ a : Nat, a < 16 → ∀ b : Nat, b < 16 →
    Nat.digitChar a = Nat.digitChar b → a = b := by decide

theorem map_digitChar_inj : ∀ (xs ys : List Nat), (∀ x ∈ xs, x < 16) → (∀ y ∈ ys, y < 16) →
    xs.map Nat.digitChar = ys.map Nat.digitChar → xs = ys := by
  intro xs
  induction xs with
  | nil => intro ys _ _ h; cases ys with
    | nil => rfl
    | cons y ys => simp at h
  | cons x xs ih =>
    intro ys hx hy h
    cases ys with
    | nil => simp at h
    | cons y ys =>
      simp only [List.map_cons, List.cons.injEq] at h
      have h1 : x = y := digitChar_inj16 x (hx x (by simp)) y (hy y (by simp)) h.1
      have h2 : xs = ys := ih ys (fun a ha => hx a (by simp [ha]))
        (fun a ha => hy a (by simp [ha])) h.2
      rw [h1, h2]

theorem natToDecStr_inj : ∀ (a b : Nat), natToDecStr a = natToDecStr b → a = b := by
  have hval : ∀ n : Nat, n ≠ 0 →
      ((natToDecStr n).data = ((digitsAux 10 n n).reverse).map Nat.digitChar) := by
    intro n hn
    simp [natToDecStr, hn]
  have hdigs : ∀ a b : Nat, a ≠ 0 → b ≠ 0 → natToDecStr a = natToDecStr b → a = b := by
    intro a b ha hb h
    have hd : ((digitsAux 10 a a).reverse).map Nat.digitChar =
        ((digitsAux 10 b b).reverse).map Nat.digitChar := by
      rw [← hval a ha, ← hval b hb, h]
    have hlt : ∀ x ∈ (digitsAux 10 a a).reverse, x < 16 := by
      intro x hx
      exact lt_trans (digitsAux_mem_lt 10 (by omega) _ _ x (List.mem_reverse.mp hx)) (by omega)
    have hlt' : ∀ x ∈ (digitsAux 10 b b).reverse, x < 16 := by
      intro x hx
      exact lt_trans (digitsAux_mem_lt 10 (by omega) _ _ x (List.mem_reverse.mp hx)) (by omega)
    have := map_digitChar_inj _ _ hlt hlt' hd
    have hrev : digitsAux 10 a a = digitsAux 10 b b := by
      have := congrArg List.reverse this
      simpa using this
    have hva := digitsAux_val a a le_rfl
    have hvb := digitsAux_val b b le_rfl
    rw [hrev] at hva
    omega
  intro a b h
  by_cases ha : a = 0 <;> by_cases hb : b = 0
  · omega
  · exfalso
    have hd : (natToDecStr b).data = ['0'] := by rw [← h, ha]; rfl
    rw [hval b hb] at hd
    have h0 : ((digitsAux 10 b b).reverse).map Nat.digitChar = [0].map Nat.digitChar := by
      simpa using hd
    have hlt : ∀ x ∈ (digitsAux 10 b b).reverse, x < 16 := by
      intro x hx
      exact lt_trans (digitsAux_mem_lt 10 (by omega) _ _ x (List.mem_reverse.mp hx)) (by omega)
    have := map_digitChar_inj _ _ hlt (by intro y hy; simp at hy; omega) h0
    have hrev : digitsAux 10 b b = [0] := by
      have h2 := congrArg List.reverse this
      simpa using h2
    have hvb := digitsAux_val b b le_rfl
    rw [hrev] at hvb
    simp at hvb
    exact hb hvb.symm
  · exfalso
    have hd : (natToDecStr a).data = ['0'] := by rw [h, hb]; rfl
    rw [hval a ha] at hd
    have h0 : ((digitsAux 10 a a).reverse).map Nat.digitChar = [0].map Nat.digitChar := by
      simpa using hd
    have hlt : ∀ x ∈ (digitsAux 10 a a).reverse, x < 16 := by
      intro x hx
      exact lt_trans (digitsAux_mem_lt 10 (by omega) _ _ x (List.mem_reverse.mp hx)) (by omega)
    have := map_digitChar_inj _ _ hlt (by intro y hy; simp at hy; omega) h0
    have hrev : digitsAux 10 a a = [0] := by
      have h2 := congrArg List.reverse this
      simpa using h2
    have hva := digitsAux_val a a le_rfl
    rw [hrev] at hva
    simp at hva
    exact ha hva.symm
  · exact hdigs a b ha hb h

theorem natToDecStr_len_pos (n : Nat) : 0 < (natToDecStr n).data.length := by
  cases n with
  | zero => decide
  | succ m => simp [natToDecStr, digitsAux]

theorem fnv_fold_lt (l : List Nat) : ∀ h : Nat, h < 4294967296 →
    l.foldl (fun h c => ((h ^^^ c) * 0x01000193) % 4294967296) h < 4294967296 := by
  induction l with
  | nil => intro h hh; simpa using hh
  | cons c rest ih =>
    intro h _
    exact ih _ (Nat.mod_lt _ (by omega))

theorem hexPad8_len (n : Nat) (hn : n < 4294967296) : (hexPad8 n).data.length = 8 := by
  have hle : (if n = 0 then ['0']
      else ((digitsAux 16 n n).reverse).map Nat.digitChar).length ≤ 8 := by
    by_cases h0 : n = 0
    · simp [h0]
    · simp only [h0, if_neg, not_false_iff, List.length_map, List.length_reverse]
      exact digitsAux_len_le 16 (by omega) n n 8 (by omega)
  simp only [hexPad8, String.mk]
  simp only [List.length_append, List.length_replicate]
  omega

theorem fnv1a_len (s : String) : (fnv1a s).data.length = 8 :=
  hexPad8_len _ (fnv_fold_lt _ _ (by omega))

theorem computeHunkId_len (fp : String) (h : DiffHunk) :
    (computeHunkId fp h).data.length = 8 :=
  fnv1a_len _

/-! ## `computeHunkIds`: first pass and retroactive relabelling -/

theorem firstPass_length : ∀ (bs pre : List String), (firstPass pre bs).length = bs.length := by
  intro bs
  induction bs with
  | nil => intro pre; rfl
  | cons b rest ih => intro pre; simp [firstPass, ih]

theorem firstPass_get? : ∀ (bs pre : List String) (i : Nat), i < bs.length →
    (firstPass pre bs).get? i =
      some (if (pre ++ bs.take (i + 1)).count (bs.getD i "") = 1 then bs.getD i ""
            else bs.getD i "" ++ "-" ++
              natToDecStr ((pre ++ bs.take (i + 1)).count (bs.getD i ""))) := by
  intro bs
  induction bs with
  | nil => intro pre i hi; simp at hi
  | cons b rest ih =>
    intro pre i hi
    cases i with
    | zero =>
      have hcount : (pre ++ (b :: rest).take 1).count ((b :: rest).getD 0 "") =
          pre.count b + 1 := by
        simp [List.count_append, List.count_cons]
      simp only [firstPass, List.get?]
      rw [hcount]
      rfl
    | succ j =>
      have hj : j < rest.length := by simpa using hi
      have := ih (pre ++ [b]) j hj
      simp only [firstPass, List.get?]
      rw [this]
      have harr : (pre ++ [b]) ++ rest.take (j + 1) = pre ++ (b :: rest).take (j + 2) := by
        simp [List.take_succ_cons, List.append_assoc]
      rw [harr]
      rfl

theorem hunkIdsFold_spec (fp : String) :
    ∀ (hs : List DiffHunk) (ids0 : List String) (seen0 : List (String × Nat))
      (pre : List String),
      (∀ k, ((mapGet k seen0).getD 0) = pre.count k) →
      (hunkIdsFold fp hs (ids0, seen0)).1 =
        ids0 ++ firstPass pre (hs.map (computeHunkId fp)) ∧
      (∀ k, ((mapGet k (hunkIdsFold fp hs (ids0, seen0)).2).getD 0) =
        (pre ++ hs.map (computeHunkId fp)).count k) := by
  intro hs
  induction hs with
  | nil =>
    intro ids0 seen0 pre hinv
    refine ⟨by simp [hunkIdsFold, firstPass], ?_⟩
    intro k
    simpa using hinv k
  | cons h rest ih =>
    intro ids0 seen0 pre hinv
    have hcount : (mapGet (computeHunkId fp h) seen0).getD 0 + 1 =
        pre.count (computeHunkId fp h) + 1 := by rw [hinv]
    have hinv' : ∀ k, ((mapGet k (mapSet (computeHunkId fp h)
        ((mapGet (computeHunkId fp h) seen0).getD 0 + 1) seen0)).getD 0) =
        (pre ++ [computeHunkId fp h]).count k := by
      intro k
      rw [mapGet_mapSet]
      by_cases hk : k = computeHunkId fp h
      · subst hk
        simp [hcount, List.count_append, List.count_singleton]
      · simp only [hk, if_neg, not_false_iff, hinv k, List.count_append]
        have hne : ¬ (computeHunkId fp h = k) := fun hh => hk hh.symm
        have : [computeHunkId fp h].count k = 0 := by
          rw [List.count_singleton]
          simp [hne]
        omega
    obtain ⟨h1, h2⟩ := ih
      (ids0 ++ [if (mapGet (computeHunkId fp h) seen0).getD 0 + 1 = 1
        then computeHunkId fp h
        else computeHunkId fp h ++ "-" ++
          natToDecStr ((mapGet (computeHunkId fp h) seen0).getD 0 + 1)])
      (mapSet (computeHunkId fp h) ((mapGet (computeHunkId fp h) seen0).getD 0 + 1) seen0)
      (pre ++ [computeHunkId fp h]) hinv'
    constructor
    · show (hunkIdsFold fp rest _).1 = _
      rw [h1]
      simp only [List.map_cons, firstPass, hinv, List.append_assoc, List.cons_append,
        List.nil_append]
    · intro k
      show ((mapGet k (hunkIdsFold fp rest _).2).getD 0) = _
      rw [h2 k]
      simp [List.append_assoc]

theorem append_dash_one (s : String) : s ++ "-" ++ "1" = s ++ "-1" := by
  apply String.ext
  simp [String.data_append]

theorem natToDecStr_one : natToDecStr 1 = "1" := by decide

theorem computeHunkIds_eq_idsSpec (fp : String) (hunks : List DiffHunk) :
    computeHunkIds fp hunks = idsSpec (hunks.map (computeHunkId fp)) := by
  have h8 : ∀ b ∈ hunks.map (computeHunkId fp), b.data.length = 8 := by
    intro b hb
    rcases List.mem_map.mp hb with ⟨h, _, rfl⟩
    exact computeHunkId_len fp h
  obtain ⟨h1, h2⟩ := hunkIdsFold_spec fp hunks [] [] []
    (by intro k; simp [mapGet_nil])
  show (hunkIdsFold fp hunks ([], [])).1.map _ = _
  rw [h1]
  simp only [List.nil_append]
  set bs := hunks.map (computeHunkId fp) with hbs
  have hmapc : (firstPass [] bs).map
      (fun id => if 1 < (mapGet id (hunkIdsFold fp hunks ([], [])).2).getD 0
        then id ++ "-1" else id) =
      (firstPass [] bs).map
      (fun id => if 1 < bs.count id then id ++ "-1" else id) := by
    refine List.map_congr_left ?_
    intro a _
    rw [h2 a]
    simp
  rw [hmapc]
  apply List.ext_getElem?
  intro n
  by_cases hn : n < bs.length
  · have hfp := firstPass_get? bs [] n hn
    simp only [List.nil_append] at hfp
    rw [List.get?_eq_getElem?] at hfp
    have hspec : (idsSpec bs)[n]? =
        some (if bs.count (bs.getD n "") ≤ 1 then bs.getD n ""
          else bs.getD n "" ++ "-" ++
            natToDecStr ((bs.take (n + 1)).count (bs.getD n ""))) := by
      show ((List.range bs.length).map _)[n]? = _
      rw [List.getElem?_map, List.getElem?_range hn]
      rfl
    rw [List.getElem?_map, hfp, hspec]
    simp only [Option.map_some']
    congr 1
    have hb : bs.getD n "" = bs[n] := List.getD_eq_getElem bs "" hn
    have hblen : (bs.getD n "").data.length = 8 := by
      rw [hb]; exact h8 _ (List.getElem_mem hn)
    have hc1 : 1 ≤ (bs.take (n + 1)).count (bs.getD n "") := by
      refine List.count_pos_iff.mpr ?_
      have hlt : n < (bs.take (n + 1)).length := by
        simp [List.length_take]
        omega
      have hgt : (bs.take (n + 1))[n] = bs[n] := List.getElem_take bs
      rw [hb, ← hgt]
      exact List.getElem_mem hlt
    have hcle : (bs.take (n + 1)).count (bs.getD n "") ≤ bs.count (bs.getD n "") :=
      (List.take_sublist _ _).count_le _
    by_cases hc : (bs.take (n + 1)).count (bs.getD n "") = 1
    · rw [if_pos hc]
      by_cases htot : bs.count (bs.getD n "") ≤ 1
      · have hnl : ¬ 1 < bs.count (bs.getD n "") := by omega
        rw [if_neg hnl, if_pos htot]
      · have hl : 1 < bs.count (bs.getD n "") := by omega
        rw [if_pos hl, if_neg htot, hc, natToDecStr_one, append_dash_one]
    · rw [if_neg hc]
      have hnotmem : (bs.getD n "" ++ "-" ++
          natToDecStr ((bs.take (n + 1)).count (bs.getD n ""))) ∉ bs := by
        intro hmem
        have hm8 := h8 _ hmem
        have hpos := natToDecStr_len_pos ((bs.take (n + 1)).count (bs.getD n ""))
        have hexp : ((bs.getD n "" ++ "-" ++
            natToDecStr ((bs.take (n + 1)).count (bs.getD n ""))).data).length =
            9 + (natToDecStr ((bs.take (n + 1)).count (bs.getD n ""))).data.length := by
          have hdash : ("-" : String).data.length = 1 := rfl
          rw [String.data_append, String.data_append, List.length_append,
            List.length_append, hblen, hdash]
        omega
      have hzero : bs.count (bs.getD n "" ++ "-" ++
          natToDecStr ((bs.take (n + 1)).count (bs.getD n ""))) = 0 :=
        List.count_eq_zero_of_not_mem hnotmem
      have hrel : ¬ 1 < bs.count (bs.getD n "" ++ "-" ++
          natToDecStr ((bs.take (n + 1)).count (bs.getD n ""))) := by omega
      have htot : ¬ bs.count (bs.getD n "") ≤ 1 := by omega
      rw [if_neg hrel, if_neg htot]
  · have hlen1 : ((firstPass [] bs).map
        (fun id => if 1 < bs.count id then id ++ "-1" else id)).length = bs.length := by
      simp [firstPass_length]
    have hlen2 : (idsSpec bs).length = bs.length := by
      show ((List.range bs.length).map _).length = bs.length
      simp
    rw [List.getElem?_eq_none, List.getElem?_eq_none]
    · omega
    · omega

/-- Claim C4: positionally, `computeHunkIds` gives a sub-hunk whose
content hash occurs once in the batch its bare hash, and within a group of
equal hashes the `k`-th occurrence (first included) the suffix `-k` — so
occurrences 2, 3, … get `-2`, `-3`, … and the first occurrence is
relabelled `-1` exactly when a duplicate exists. -/
theorem C4_duplicate_suffixes (fp : String) (hunks : List DiffHunk) (i : Nat)
    (hi : i < hunks.length) :
    (computeHunkIds fp hunks).get? i =
      some (if (hunks.map (computeHunkId fp)).count (computeHunkId fp hunks[i]) ≤ 1
            then computeHunkId fp hunks[i]
            else computeHunkId fp hunks[i] ++ "-" ++
              natToDecStr (((hunks.map (computeHunkId fp)).take (i + 1)).count
                (computeHunkId fp hunks[i]))) := by
  rw [computeHunkIds_eq_idsSpec, List.get?_eq_getElem?]
  have hi' : i < (hunks.map (computeHunkId fp)).length := by simpa using hi
  show ((List.range (hunks.map (computeHunkId fp)).length).map _)[i]? = _
  rw [List.getElem?_map, List.getElem?_range hi']
  simp only [Option.map_some']
  congr 1
  have hgd : (hunks.map (computeHunkId fp)).getD i "" = computeHunkId fp hunks[i] := by
    rw [List.getD_eq_getElem _ _ hi', List.getElem_map]
  rw [hgd]

/-- Witness for C4: two byte-identical hunks; the second gets suffix
`-2`. -/
theorem C4_witness :
    (1 : Nat) <
      ([⟨1, 1, 1, 1, "h", [⟨.remove, "x"⟩, ⟨.add, "y"⟩], [], none⟩,
        ⟨1, 1, 1, 1, "h", [⟨.remove, "x"⟩, ⟨.add, "y"⟩], [], none⟩] : List DiffHunk).length ∧
    (computeHunkIds "f"
      [⟨1, 1, 1, 1, "h", [⟨.remove, "x"⟩, ⟨.add, "y"⟩], [], none⟩,
       ⟨1, 1, 1, 1, "h", [⟨.remove, "x"⟩, ⟨.add, "y"⟩], [], none⟩]).get? 1 =
      some "498b6b49-2" := by
  refine ⟨by decide, ?_⟩
  have h := C4_duplicate_suffixes "f"
    [⟨1, 1, 1, 1, "h", [⟨.remove, "x"⟩, ⟨.add, "y"⟩], [], none⟩,
     ⟨1, 1, 1, 1, "h", [⟨.remove, "x"⟩, ⟨.add, "y"⟩], [], none⟩] 1 (by decide)
  rw [h]
  decide

theorem suffixed_data (b d : String) : (b ++ "-" ++ d).data = (b.data ++ ['-']) ++ d.data := by
  rw [String.data_append, String.data_append]

theorem count_take_lt (bs : List String) (i j : Nat) (hij : i < j) (hj : j < bs.length)
    (hEq : bs.getD i "" = bs.getD j "") :
    (bs.take (i + 1)).count (bs.getD i "") < (bs.take (j + 1)).count (bs.getD j "") := by
  rw [hEq]
  have hsplit : bs.take (j + 1) = bs.take (i + 1) ++ ((bs.take (j + 1)).drop (i + 1)) := by
    conv_lhs => rw [← List.take_append_drop (i + 1) (bs.take (j + 1))]
    congr 1
    rw [List.take_take]
    congr 1
    omega
  conv_rhs => rw [hsplit]
  rw [List.count_append]
  have hlen : (bs.take (j + 1)).length = j + 1 := by
    simp [List.length_take]
    omega
  have hdl : ((bs.take (j + 1)).drop (i + 1)).length = j - i := by
    rw [List.length_drop, hlen]
    omega
  have hidx : j - i - 1 < ((bs.take (j + 1)).drop (i + 1)).length := by omega
  have hval : ((bs.take (j + 1)).drop (i + 1))[j - i - 1] = bs.getD j "" := by
    rw [List.getElem_drop]
    have hj2 : (i + 1) + (j - i - 1) = j := by omega
    have hb2 : (i + 1) + (j - i - 1) < (bs.take (j + 1)).length := by omega
    have hstep : (bs.take (j + 1))[(i + 1) + (j - i - 1)] = bs[j] := by
      simp only [hj2]
      exact List.getElem_take bs
    rw [hstep]
    exact (List.getD_eq_getElem bs "" hj).symm
  have hmem : bs.getD j "" ∈ (bs.take (j + 1)).drop (i + 1) := by
    rw [← hval]
    exact List.getElem_mem hidx
  have hpos : 0 < ((bs.take (j + 1)).drop (i + 1)).count (bs.getD j "") :=
    List.count_pos_iff.mpr hmem
  have hle : (bs.take (i + 1)).count (bs.getD j "") ≤ (bs.take (i + 1)).count (bs.getD j "") :=
    le_rfl
  omega

theorem count_take_pos (bs : List String) (i : Nat) (hi : i < bs.length) :
    1 ≤ (bs.take (i + 1)).count (bs.getD i "") := by
  refine List.count_pos_iff.mpr ?_
  have hlt : i < (bs.take (i + 1)).length := by
    simp [List.length_take]
    omega
  have hval : (bs.take (i + 1))[i] = bs[i] := List.getElem_take bs
  rw [List.getD_eq_getElem bs "" hi, ← hval]
  exact List.getElem_mem hlt

theorem idsSpec_entry_ne (bs : List String) (h8 : ∀ b ∈ bs, b.data.length = 8)
    (i j : Nat) (hij : i < j) (hj : j < bs.length) :
    (if bs.count (bs.getD i "") ≤ 1 then bs.getD i ""
     else bs.getD i "" ++ "-" ++ natToDecStr ((bs.take (i + 1)).count (bs.getD i ""))) ≠
    (if bs.count (bs.getD j "") ≤ 1 then bs.getD j ""
     else bs.getD j "" ++ "-" ++ natToDecStr ((bs.take (j + 1)).count (bs.getD j ""))) := by
  have hi : i < bs.length := lt_trans hij hj
  have hbi8 : (bs.getD i "").data.length = 8 := by
    rw [List.getD_eq_getElem bs "" hi]
    exact h8 _ (List.getElem_mem hi)
  have hbj8 : (bs.getD j "").data.length = 8 := by
    rw [List.getD_eq_getElem bs "" hj]
    exact h8 _ (List.getElem_mem hj)
  have hci1 := count_take_pos bs i hi
  have hcj1 := count_take_pos bs j hj
  have hcile : (bs.take (i + 1)).count (bs.getD i "") ≤ bs.count (bs.getD i "") :=
    (List.take_sublist _ _).count_le _
  have hcjle : (bs.take (j + 1)).count (bs.getD j "") ≤ bs.count (bs.getD j "") :=
    (List.take_sublist _ _).count_le _
  by_cases hti : bs.count (bs.getD i "") ≤ 1 <;>
    by_cases htj : bs.count (bs.getD j "") ≤ 1
  · rw [if_pos hti, if_pos htj]
    intro hEq
    have hlt := count_take_lt bs i j hij hj hEq
    have : (bs.take (j + 1)).count (bs.getD j "") ≥ 2 := by omega
    omega
  · rw [if_pos hti, if_neg htj]
    intro hEq
    have hd := congrArg (fun s : String => s.data.length) hEq
    simp only [suffixed_data, List.length_append] at hd
    have hpos := natToDecStr_len_pos ((bs.take (j + 1)).count (bs.getD j ""))
    simp only [hbi8, hbj8, List.length_cons] at hd
    omega
  · rw [if_neg hti, if_pos htj]
    intro hEq
    have hd := congrArg (fun s : String => s.data.length) hEq
    simp only [suffixed_data, List.length_append] at hd
    have hpos := natToDecStr_len_pos ((bs.take (i + 1)).count (bs.getD i ""))
    simp only [hbi8, hbj8, List.length_cons] at hd
    omega
  · rw [if_neg hti, if_neg htj]
    intro hEq
    have hd := congrArg String.data hEq
    rw [suffixed_data, suffixed_data] at hd
    have hlen9 : ((bs.getD i "").data ++ ['-']).length = ((bs.getD j "").data ++ ['-']).length := by
      rw [List.length_append, List.length_append, hbi8, hbj8]
    obtain ⟨hdash, hdec⟩ := List.append_inj hd hlen9
    have hb : (bs.getD i "").data = (bs.getD j "").data :=
      (List.append_inj hdash (by rw [hbi8, hbj8])).1
    have hbeq : bs.getD i "" = bs.getD j "" := String.ext hb
    have hceq : (bs.take (i + 1)).count (bs.getD i "") =
        (bs.take (j + 1)).count (bs.getD j "") :=
      natToDecStr_inj _ _ (String.ext hdec)
    have hlt := count_take_lt bs i j hij hj hbeq
    omega

theorem idsSpec_nodup (bs : List String) (h8 : ∀ b ∈ bs, b.data.length = 8) :
    (idsSpec bs).Nodup := by
  refine List.Nodup.map_on ?_ (List.nodup_range _)
  intro x hx y hy hEq
  rw [List.mem_range] at hx hy
  by_contra hne
  rcases Nat.lt_or_ge x y with hlt | hge
  · exact idsSpec_entry_ne bs h8 x y hlt hy hEq
  · have hlt : y < x := by omega
    exact idsSpec_entry_ne bs h8 y x hlt hx hEq.symm

/-- Claim C10: `computeHunkIds` returns exactly one identifier per input
sub-hunk, in order, and the identifiers are pairwise distinct — equal hash
strings are suffix-disambiguated whether or not the underlying contents
are equal, and a suffixed identifier can never collide with a bare 8-char
hash. -/
theorem C10_ids_length_nodup (fp : String) (hunks : List DiffHunk) :
    (computeHunkIds fp hunks).length = hunks.length ∧
      (computeHunkIds fp hunks).Nodup := by
  rw [computeHunkIds_eq_idsSpec]
  have h8 : ∀ b ∈ hunks.map (computeHunkId fp), b.data.length = 8 := by
    intro b hb
    rcases List.mem_map.mp hb with ⟨h, _, rfl⟩
    exact computeHunkId_len fp h
  constructor
  · show ((List.range _).map _).length = _
    simp
  · exact idsSpec_nodup _ h8

/-! ## State engine: reconciliation (C2) -/

theorem buildMap_get (v : String → HunkStatus) :
    ∀ (hunks : List DiffHunk) (acc : List (String × HunkStatus)) (k : String),
      mapGet k (hunks.foldl (fun acc h =>
        match h.id with
        | some hid => mapSet hid (v hid) acc
        | none => acc) acc) =
      if hunks.any (fun h => h.id = some k) then some (v k) else mapGet k acc := by
  intro hunks
  induction hunks with
  | nil => intro acc k; simp
  | cons h rest ih =>
    intro acc k
    cases hid : h.id with
    | none =>
      simp only [List.foldl_cons, hid, List.any_cons]
      rw [ih]
      simp
    | some x =>
      simp only [List.foldl_cons, hid, List.any_cons]
      by_cases hx : x = k
      · subst hx
        rw [ih]
        by_cases hrest : rest.any (fun h => h.id = some x)
        · simp [hrest]
        · simp only [hrest]
          simp [mapGet_mapSet_self]
      · rw [ih]
        have h1 : ¬ (h.id = some k) := by rw [hid]; simp [hx]
        by_cases hrest : rest.any (fun h => h.id = some k)
        · simp [hrest]
        · simp only [hrest]
          simp [h1, hx, mapGet_mapSet_ne _ _ (fun hh => hx hh.symm)]

/-- Claim C2: `syncStatuses(file)` replaces the file's status map with one
keyed exactly by the identities present in `file.hunks`; a previously
present identity keeps its prior status, a new one defaults to pending,
an absent one is dropped; the returned array is ordered to match
`file.hunks`; other files' maps are untouched.  Consequently a previously
approved hunk whose content identity is unchanged is still approved. -/
theorem C2_syncStatuses_reconcile (s : SMState) (file : DiffFile) :
    ∃ nm,
      mapGet (filePathOf file) (syncStatuses s file).1.statuses = some nm ∧
      (∀ id, mapGet id nm =
        if file.hunks.any (fun h => h.id = some id)
        then some ((mapGet id ((mapGet (filePathOf file) s.statuses).getD [])).getD .pending)
        else none) ∧
      (syncStatuses s file).2 = file.hunks.map (fun h =>
        match h.id with
        | some hid => (mapGet hid nm).getD .pending
        | none => .pending) ∧
      (∀ p, p ≠ filePathOf file →
        mapGet p (syncStatuses s file).1.statuses = mapGet p s.statuses) := by
  unfold syncStatuses
  cases hex : mapGet (filePathOf file) s.statuses with
  | none =>
    simp only [hex]
    unfold syncFresh
    dsimp only [persist]
    refine ⟨file.hunks.foldl (fun acc h =>
      match h.id with
      | some hid => mapSet hid HunkStatus.pending acc
      | none => acc) [], ?_, ?_, ?_, ?_⟩
    · exact mapGet_mapSet_self _ _ _
    · intro id
      rw [buildMap_get (fun _ => .pending) file.hunks [] id]
      simp [hex, mapGet_nil]
    · refine (List.map_congr_left ?_).symm
      intro h _
      cases hid : h.id with
      | none => rfl
      | some x =>
        simp only
        rw [buildMap_get (fun _ => .pending) file.hunks [] x]
        by_cases hany : file.hunks.any (fun h => h.id = some x) <;> simp [hany, mapGet_nil]
    · intro p hp
      exact mapGet_mapSet_ne _ _ hp
  | some m =>
    by_cases hemp : m.isEmpty
    · simp only [hex, hemp, if_pos]
      unfold syncFresh
      dsimp only [persist]
      have hm : m = [] := by
        cases m with
        | nil => rfl
        | cons a b => simp [List.isEmpty] at hemp
      refine ⟨file.hunks.foldl (fun acc h =>
        match h.id with
        | some hid => mapSet hid HunkStatus.pending acc
        | none => acc) [], ?_, ?_, ?_, ?_⟩
      · exact mapGet_mapSet_self _ _ _
      · intro id
        rw [buildMap_get (fun _ => .pending) file.hunks [] id]
        simp [hex, hm, mapGet_nil]
      · refine (List.map_congr_left ?_).symm
        intro h _
        cases hid : h.id with
        | none => rfl
        | some x =>
          simp only
          rw [buildMap_get (fun _ => .pending) file.hunks [] x]
          by_cases hany : file.hunks.any (fun h => h.id = some x) <;> simp [hany, mapGet_nil]
      · intro p hp
        exact mapGet_mapSet_ne _ _ hp
    · simp only [hex, hemp, if_neg, Bool.false_eq_true, not_false_iff]
      dsimp only [persist]
      refine ⟨file.hunks.foldl (fun acc h =>
        match h.id with
        | some hid => mapSet hid ((mapGet hid m).getD .pending) acc
        | none => acc) [], ?_, ?_, ?_, ?_⟩
      · exact mapGet_mapSet_self _ _ _
      · intro id
        rw [buildMap_get (fun hid => (mapGet hid m).getD .pending) file.hunks [] id]
        simp [hex, mapGet_nil]
      · rfl
      · intro p hp
        exact mapGet_mapSet_ne _ _ hp

/-! ## State engine: lookup misses (C9) -/

/-- Claim C9: `approve` with an unknown file path or unknown hunk id is a
no-op returning the state unchanged (statuses, undo stack and storage
untouched), and `reject` with an id matching no hunk of the file returns
`null` without invoking the reverse-apply operation and without touching
any state. -/
theorem C9_lookup_miss_noop (s : SMState) (path id : String) :
    ((mapGet path s.statuses = none ∨
        ∃ m, mapGet path s.statuses = some m ∧ mapGet id m = none) →
      approve s path id = s) ∧
    (∀ (file : DiffFile) (fresh : List DiffFile),
      (∀ h ∈ file.hunks, ¬ h.id = some id) →
      reject s path id file fresh = (s, none, [])) := by
  constructor
  · intro hmiss
    unfold approve
    rcases hmiss with hnone | ⟨m, hm, hid⟩
    · rw [hnone]
    · rw [hm]
      simp only
      rw [hid]
      rfl
  · intro file fresh hno
    unfold reject
    have hfind : file.hunks.find? (fun h => h.id = some id) = none := by
      rw [List.find?_eq_none]
      intro x hx
      simpa using hno x hx
    rw [hfind]

/-- Witness for C9: a state tracking file `a` with hunk `x`; approving the
unknown id `y` and rejecting against a file whose only hunk has id `z` are
both no-ops. -/
theorem C9_witness :
    approve (⟨[("a", [("x", HunkStatus.pending)])], [], []⟩ : SMState) "a" "y" =
      (⟨[("a", [("x", HunkStatus.pending)])], [], []⟩ : SMState) ∧
    reject (⟨[("a", [("x", HunkStatus.pending)])], [], []⟩ : SMState) "a" "y"
        (⟨"a", "a", [⟨1, 1, 1, 1, "h", [], [], some "z"⟩], false, []⟩) [] =
      ((⟨[("a", [("x", HunkStatus.pending)])], [], []⟩ : SMState), none, []) := by
  have h := C9_lookup_miss_noop ⟨[("a", [("x", HunkStatus.pending)])], [], []⟩ "a" "y"
  exact ⟨h.1 (Or.inr ⟨[("x", HunkStatus.pending)], by decide, by decide⟩),
         h.2 (⟨"a", "a", [⟨1, 1, 1, 1, "h", [], [], some "z"⟩], false, []⟩) [] (by decide)⟩

/-! ## State engine: undo (C7) -/

/-- Claim C7: `undo` pops exactly the top entry.  For an approve entry it
resets only that identity's status to pending (every other file/identity
pair is untouched), makes no external call, and returns the file path with
kind approve.  For a reject entry carrying a (nonempty) stored patch it
changes no statuses, invokes forward-apply with exactly that patch, and
returns the path with kind reject.  On an empty stack it returns the no-op
signal and the state unchanged. -/
theorem C7_undo_reverses_last (s : SMState) :
    (s.undoStack = [] → undo s = (s, none, [])) ∧
    (∀ e rest, s.undoStack = e :: rest →
      (e.type = .approve →
        (undo s).2.1 = some (e.filePath, UndoType.approve) ∧
        (undo s).2.2 = [] ∧
        (undo s).1.undoStack = rest ∧
        (¬ getStatus s e.filePath e.hunkId = none →
          getStatus (undo s).1 e.filePath e.hunkId = some .pending) ∧
        (∀ p i, ¬ (p = e.filePath ∧ i = e.hunkId) →
          getStatus (undo s).1 p i = getStatus s p i)) ∧
      (∀ patch, e.type = .reject → e.forwardPatch = some patch → ¬ patch = "" →
        undo s = ({ s with undoStack := rest, storage := persistData s.statuses },
          some (e.filePath, UndoType.reject), [patch]))) := by
  constructor
  · intro hempty
    unfold undo
    rw [hempty]
  · intro e rest hcons
    constructor
    · intro htype
      unfold undo
      rw [hcons]
      simp only [htype, if_pos]
      cases hm : mapGet e.filePath s.statuses with
      | none =>
        refine ⟨by trivial, by trivial, by trivial, ?_, ?_⟩
        · intro hne
          exact absurd (by simp [getStatus, hm]) hne
        · intro p i _
          rfl
      | some m =>
        by_cases hsome : (mapGet e.hunkId m).isSome
        · simp only [hsome, if_pos]
          refine ⟨by trivial, by trivial, by trivial, ?_, ?_⟩
          · intro _
            simp [getStatus, persist, mapGet_mapSet_self, mapGet_mapSet]
          · intro p i hpi
            by_cases hp : p = e.filePath
            · subst hp
              have hi : ¬ i = e.hunkId := fun hh => hpi ⟨rfl, hh⟩
              simp [getStatus, persist, mapGet_mapSet_self, hm,
                mapGet_mapSet_ne _ _ hi]
            · simp [getStatus, persist, mapGet_mapSet_ne _ _ hp]
        · simp only [hsome, Bool.false_eq_true, if_neg, not_false_iff]
          refine ⟨by trivial, by trivial, by trivial, ?_, ?_⟩
          · intro hne
            have : (mapGet e.hunkId m) = none := by
              cases hmm : mapGet e.hunkId m with
              | none => rfl
              | some w => rw [hmm] at hsome; simp at hsome
            exact absurd (by simp [getStatus, hm, this]) hne
          · intro p i _
            rfl
    · intro patch htype hfp hne
      unfold undo
      rw [hcons]
      have hnapp : ¬ (e.type = UndoType.approve) := by rw [htype]; intro h; cases h
      simp only [hnapp, if_neg, Bool.false_eq_true, not_false_iff, hfp, hne, htype]
      rfl

/-- Witness for C7: undoing a single approval resets it to pending;
undoing a reject invokes forward-apply with the stored patch. -/
theorem C7_witness :
    (¬ getStatus (⟨[("f", [("h", HunkStatus.approved)])],
        [⟨UndoType.approve, "f", "h", none⟩], []⟩ : SMState) "f" "h" = none ∧
      getStatus (undo (⟨[("f", [("h", HunkStatus.approved)])],
        [⟨UndoType.approve, "f", "h", none⟩], []⟩ : SMState)).1 "f" "h" =
        some HunkStatus.pending) ∧
    undo (⟨[], [⟨UndoType.reject, "f", "h", some "P"⟩], []⟩ : SMState) =
      ((⟨[], [], []⟩ : SMState), some ("f", UndoType.reject), ["P"]) := by
  constructor
  · have h := ((C7_undo_reverses_last
      ⟨[("f", [("h", HunkStatus.approved)])], [⟨UndoType.approve, "f", "h", none⟩], []⟩).2
      ⟨UndoType.approve, "f", "h", none⟩ [] rfl).1 rfl
    exact ⟨by decide, h.2.2.2.1 (by decide)⟩
  · have h := ((C7_undo_reverses_last
      ⟨[], [⟨UndoType.reject, "f", "h", some "P"⟩], []⟩).2
      ⟨UndoType.reject, "f", "h", some "P"⟩ [] rfl).2 "P" rfl rfl (by decide)
    rw [h]
    decide

/-! ## State engine: persistence (C8) -/

theorem SMInv_persist (x : SMState) : SMInv (persist x) := rfl

theorem SMInv_syncStatuses (s : SMState) (file : DiffFile) :
    SMInv (syncStatuses s file).1 := by
  unfold syncStatuses syncFresh
  dsimp only
  cases hx : mapGet (filePathOf file) s.statuses with
  | none =>
    simp only [hx]
    exact SMInv_persist _
  | some m =>
    simp only [hx]
    by_cases hemp : m.isEmpty
    · simp only [hemp, if_pos]
      exact SMInv_persist _
    · simp only [hemp, Bool.false_eq_true, if_neg, not_false_iff]
      exact SMInv_persist _

/-- Claim C8: the persisted blob holds, per file path, exactly the
identities whose in-memory status is approved, each mapped to the literal
approved status — pending/rejected entries are never written and a file
with no approved hunk has no entry at all; and every state-mutating
operation preserves "storage = persistData statuses", so the blob always
has that shape after the operation. -/
theorem C8_storage_approved_only :
    (∀ (sts : List (String × List (String × HunkStatus))) (path : String)
       (obj : List (String × HunkStatus)),
      (path, obj) ∈ persistData sts ↔
        ∃ m, (path, m) ∈ sts ∧ obj = m.filter (fun e => e.2 = .approved) ∧
          ¬ obj.isEmpty) ∧
    (∀ s : SMState, SMInv s →
      (∀ file, SMInv (syncStatuses s file).1) ∧
      (∀ p i, SMInv (approve s p i)) ∧
      (∀ p file, SMInv (approveAll s p file)) ∧
      (∀ p i file fresh, SMInv (reject s p i file fresh).1) ∧
      SMInv (undo s).1 ∧
      (∀ p i, SMInv (undoApprove s p i)) ∧
      SMInv (clear s) ∧
      (∀ files, SMInv (pruneCommittedFiles s files))) := by
  constructor
  · intro sts path obj
    unfold persistData
    rw [List.mem_filter, List.mem_map]
    constructor
    · rintro ⟨⟨e, he, heq⟩, hne⟩
      obtain ⟨h1, h2⟩ := Prod.mk.injEq _ _ _ _ ▸ heq
      refine ⟨e.2, ?_, h2.symm, ?_⟩
      · rw [← h1]; exact he
      · simpa using hne
    · rintro ⟨m, hm, hobj, hne⟩
      refine ⟨⟨(path, m), hm, ?_⟩, ?_⟩
      · simp [hobj]
      · simpa using hne
  · intro s hs
    refine ⟨?_, ?_, ?_, ?_, ?_, ?_, ?_, ?_⟩
    · intro file
      exact SMInv_syncStatuses s file
    · intro p i
      unfold approve
      cases hx : mapGet p s.statuses with
      | none => simp only [hx]; exact hs
      | some m =>
        simp only [hx]
        by_cases hid : (mapGet i m).isNone
        · simp only [hid, if_pos]
          exact hs
        · simp only [hid, Bool.false_eq_true, if_neg, not_false_iff]
          exact SMInv_persist _
    · intro p file
      unfold approveAll
      cases hx : mapGet p s.statuses with
      | none => simp only [hx]; exact hs
      | some m =>
        simp only [hx]
        exact SMInv_persist _
    · intro p i file fresh
      unfold reject
      cases hf : file.hunks.find? (fun h => h.id = some i) with
      | none => simp only [hf]; exact hs
      | some hunk =>
        simp only [hf]
        cases fresh with
        | nil =>
          cases hx : mapGet p s.statuses with
          | none => simp only [hx]; exact SMInv_persist _
          | some m => simp only [hx]; exact SMInv_persist _
        | cons freshFile frest =>
          cases hx : mapGet p s.statuses with
          | none => simp only [hx]; exact SMInv_syncStatuses _ _
          | some m => simp only [hx]; exact SMInv_syncStatuses _ _
    · unfold undo
      cases hst : s.undoStack with
      | nil => simp only [hst]; exact hs
      | cons e rest =>
        simp only [hst]
        by_cases htype : e.type = .approve
        · simp only [htype, if_pos]
          cases hx : mapGet e.filePath s.statuses with
          | none => simp only [hx]; exact SMInv_persist _
          | some m =>
            simp only [hx]
            by_cases hsome : (mapGet e.hunkId m).isSome
            · simp only [hsome, if_pos]
              exact SMInv_persist _
            · simp only [hsome, Bool.false_eq_true, if_neg, not_false_iff]
              exact SMInv_persist _
        · simp only [htype, if_neg, not_false_iff]
          cases hfp : e.forwardPatch with
          | none => simp only [hfp]; exact SMInv_persist _
          | some patch =>
            simp only [hfp]
            by_cases hp : patch = ""
            · simp only [hp, if_pos]
              exact SMInv_persist _
            · simp only [hp, if_neg, not_false_iff]
              exact SMInv_persist _
    · intro p i
      unfold undoApprove
      cases hx : mapGet p s.statuses with
      | none => simp only [hx]; exact hs
      | some m =>
        simp only [hx]
        by_cases happ : mapGet i m = some .approved
        · simp only [happ, if_pos]
          exact SMInv_persist _
        · simp only [happ, if_neg, not_false_iff]
          exact hs
    · exact SMInv_persist _
    · intro files
      unfold pruneCommittedFiles
      dsimp only
      by_cases hch : s.statuses.any (fun e => ¬ (files.map filePathOf).contains e.1)
      · simp only [hch, if_pos]
        exact SMInv_persist _
      · simp only [hch, Bool.false_eq_true, if_neg, not_false_iff]
        have hkeep : s.statuses.filter (fun e => (files.map filePathOf).contains e.1) =
            s.statuses := by
          refine List.filter_eq_self.mpr ?_
          intro a ha
          by_contra hcon
          have : s.statuses.any (fun e => ¬ (files.map filePathOf).contains e.1) := by
            refine List.any_eq_true.mpr ⟨a, ha, ?_⟩
            simpa using hcon
          exact absurd this (by simpa using hch)
        show s.storage = persistData (s.statuses.filter _)
        rw [hkeep]
        exact hs

/-- Witness for C8 at a concrete invariant-satisfying state. -/
theorem C8_witness :
    SMInv (⟨[("f", [("h", HunkStatus.approved), ("i", HunkStatus.pending)])], [],
      [("f", [("h", HunkStatus.approved)])]⟩ : SMState) ∧
    SMInv (approve (⟨[("f", [("h", HunkStatus.approved), ("i", HunkStatus.pending)])], [],
      [("f", [("h", HunkStatus.approved)])]⟩ : SMState) "f" "i") ∧
    (("f", [("h", HunkStatus.approved)]) ∈
        persistData [("f", [("h", HunkStatus.approved), ("i", HunkStatus.pending)])] ↔
      ∃ m, ("f", m) ∈ [("f", [("h", HunkStatus.approved), ("i", HunkStatus.pending)])] ∧
        [("h", HunkStatus.approved)] = m.filter (fun e => e.2 = HunkStatus.approved) ∧
        ¬ ([("h", HunkStatus.approved)] : List (String × HunkStatus)).isEmpty) := by
  have hinv : SMInv (⟨[("f", [("h", HunkStatus.approved), ("i", HunkStatus.pending)])], [],
      [("f", [("h", HunkStatus.approved)])]⟩ : SMState) := by
    unfold SMInv
    decide
  refine ⟨hinv, ?_, ?_⟩
  · exact ((C8_storage_approved_only.2 _ hinv).2.1) "f" "i"
  · exact C8_storage_approved_only.1 _ "f" _

/-! ## Round-tripping a parsed hunk (C3) -/

theorem strStartsWith_iff (s p : String) :
    strStartsWith s p = true ↔ p.data <+: s.data := by
  rw [strStartsWith]
  exact List.isPrefixOf_iff_prefix

theorem strStartsWith_of_prefix {s p : String} (h : p.data <+: s.data) :
    strStartsWith s p = true :=
  (strStartsWith_iff s p).mpr h

theorem strStartsWith_false_head {s p : String} {c c' : Char} {t t' : List Char}
    (hs : s.data = c :: t) (hp : p.data = c' :: t') (hne : ¬ c' = c) :
    strStartsWith s p = false := by
  rw [strStartsWith, hs, hp]
  simp [List.isPrefixOf, hne]

theorem strStartsWith_data {s p : String} (h : strStartsWith s p = true) :
    ∃ t, s.data = p.data ++ t := by
  rcases (strStartsWith_iff s p).mp h with ⟨t, ht⟩
  exact ⟨t, ht.symm⟩

theorem strStartsWith_empty_false (p : String) {c : Char} {t : List Char}
    (hp : p.data = c :: t) : strStartsWith "" p = false := by
  rw [strStartsWith, hp]
  rfl

theorem splitNl_ne_nil : ∀ cs : List Char, ¬ splitNl cs = [] := by
  intro cs
  induction cs with
  | nil => simp [splitNl]
  | cons c rest ih =>
    rw [splitNl]
    cases hr : splitNl rest with
    | nil => exact absurd hr ih
    | cons g gs =>
      by_cases hc : c = '\n' <;> simp [hc]

theorem splitNl_append_nl (a : List Char) (ha : '\n' ∉ a) :
    ∀ rest : List Char, splitNl (a ++ '\n' :: rest) = a :: splitNl rest := by
  induction a with
  | nil =>
    intro rest
    rw [List.nil_append, splitNl]
    cases hr : splitNl rest with
    | nil => exact absurd hr (splitNl_ne_nil rest)
    | cons g gs => simp
  | cons c a' ih =>
    intro rest
    have hc : ¬ c = '\n' := fun h => ha (by simp [h])
    have ha' : '\n' ∉ a' := fun h => ha (by simp [h])
    rw [List.cons_append, splitNl, ih ha' rest]
    simp [hc]

theorem joinNl_split (L : List String) (hne : ¬ L = []) (hnl : ∀ x ∈ L, noNl x) :
    splitNl (joinNlData L ++ ['\n']) = L.map String.data ++ [[]] := by
  induction L with
  | nil => exact absurd rfl hne
  | cons x ys ih =>
    cases ys with
    | nil =>
      have hx : '\n' ∉ x.data := hnl x (by simp)
      show splitNl (x.data ++ '\n' :: []) = [x.data, []]
      rw [splitNl_append_nl x.data hx []]
      rfl
    | cons y rest =>
      have hx : '\n' ∉ x.data := hnl x (by simp)
      show splitNl ((x.data ++ '\n' :: joinNlData (y :: rest)) ++ ['\n']) = _
      rw [List.append_assoc, List.cons_append, splitNl_append_nl x.data hx]
      rw [ih (by simp) (fun z hz => hnl z (by simp [hz]))]
      rfl

theorem parseHunkBody_spec :
    ∀ (ls : List String) (accL : List DiffLine) (accR : List String),
      ∃ (k : Nat) (lb : List DiffLine),
        parseHunkBody ls accL accR = (accL ++ lb, accR ++ ls.take k, ls.drop k) ∧
        BodyRel (ls.take k) lb := by
  intro ls
  induction ls with
  | nil =>
    intro accL accR
    exact ⟨0, [], by simp [parseHunkBody], BodyRel.nil⟩
  | cons line rest ih =>
    intro accL accR
    by_cases h1 : (strStartsWith line "@@" || strStartsWith line "diff --git ") = true
    · refine ⟨0, [], ?_, BodyRel.nil⟩
      simp [parseHunkBody, h1]
    · by_cases h2 : strStartsWith line "\\ " = true
      · obtain ⟨k, lb, heq, hrel⟩ := ih accL (accR ++ [line])
        refine ⟨k + 1, lb, ?_, ?_⟩
        · simp only [parseHunkBody, h1, Bool.false_eq_true, if_neg, not_false_iff, h2,
            if_pos, heq]
          simp [List.take_succ_cons, List.drop_succ_cons]
        · exact BodyRel.noNewline line _ _ h2 hrel
      · have h2' : strStartsWith line "\\ " = false := by
          cases h : strStartsWith line "\\ " with
          | true => exact absurd h h2
          | false => rfl
        by_cases h3 : strStartsWith line "+" = true
        · obtain ⟨k, lb, heq, hrel⟩ := ih (accL ++ [⟨.add, strDrop line 1⟩]) (accR ++ [line])
          refine ⟨k + 1, ⟨.add, strDrop line 1⟩ :: lb, ?_, ?_⟩
          · simp only [parseHunkBody, h1, Bool.false_eq_true, if_neg, not_false_iff, h2,
              h3, if_pos, heq]
            simp [List.take_succ_cons, List.drop_succ_cons]
          · exact BodyRel.add line _ _ h2' h3 hrel
        · have h3' : strStartsWith line "+" = false := by
            cases h : strStartsWith line "+" with
            | true => exact absurd h h3
            | false => rfl
          by_cases h4 : strStartsWith line "-" = true
          · obtain ⟨k, lb, heq, hrel⟩ := ih (accL ++ [⟨.remove, strDrop line 1⟩]) (accR ++ [line])
            refine ⟨k + 1, ⟨.remove, strDrop line 1⟩ :: lb, ?_, ?_⟩
            · simp only [parseHunkBody, h1, Bool.false_eq_true, if_neg, not_false_iff, h2,
                h3, h4, if_pos, heq]
              simp [List.take_succ_cons, List.drop_succ_cons]
            · exact BodyRel.remove line _ _ h2' h3' h4 hrel
          · have h4' : strStartsWith line "-" = false := by
              cases h : strStartsWith line "-" with
              | true => exact absurd h h4
              | false => rfl
            by_cases h5 : (strStartsWith line " " || line = "") = true
            · by_cases h6 : (line = "" && rest.isEmpty) = true
              · refine ⟨0, [], ?_, BodyRel.nil⟩
                simp [parseHunkBody, h1, h2, h3, h4, h5, h6]
              · obtain ⟨k, lb, heq, hrel⟩ := ih (accL ++ [⟨.context, strDrop line 1⟩])
                  (accR ++ [line])
                refine ⟨k + 1, ⟨.context, strDrop line 1⟩ :: lb, ?_, ?_⟩
                · simp only [parseHunkBody, h1, Bool.false_eq_true, if_neg, not_false_iff,
                    h2, h3, h4, h5, h6, if_pos, heq]
                  simp [List.take_succ_cons, List.drop_succ_cons]
                · refine BodyRel.context line _ _ h2' h3' h4' ?_ hrel
                  rcases Bool.or_eq_true_iff.mp h5 with h | h
                  · exact Or.inl h
                  · exact Or.inr (by simpa using h)
            · refine ⟨0, [], ?_, BodyRel.nil⟩
              simp [parseHunkBody, h1, h2, h3, h4, h5]

theorem parseHunkBody_reparse (body : List String) (lb : List DiffLine)
    (hrel : BodyRel body lb) :
    ∀ (accL : List DiffLine) (accR : List String),
      parseHunkBody (body ++ [""]) accL accR = (accL ++ lb, accR ++ body, [""]) := by
  induction hrel with
  | nil =>
    intro accL accR
    show parseHunkBody [""] accL accR = (accL ++ [], accR ++ [], [""])
    simp only [List.append_nil]
    rfl
  | noNewline r raw lines hg hrel ih =>
    intro accL accR
    obtain ⟨t, ht⟩ := strStartsWith_data hg
    have hrd : r.data = '\\' :: ' ' :: t := ht
    have hq1 : strStartsWith r "@@" = false := strStartsWith_false_head hrd rfl (by decide)
    have hq2 : strStartsWith r "diff --git " = false :=
      strStartsWith_false_head hrd rfl (by decide)
    have hcond : (strStartsWith r "@@" || strStartsWith r "diff --git ") = false := by
      rw [hq1, hq2]; rfl
    show parseHunkBody ((r :: raw) ++ [""]) accL accR = _
    rw [List.cons_append]
    simp only [parseHunkBody, hcond, Bool.false_eq_true, if_neg, not_false_iff, hg, if_pos]
    rw [ih]
    simp [List.append_assoc]
  | add r raw lines hg1 hg2 hrel ih =>
    intro accL accR
    obtain ⟨t, ht⟩ := strStartsWith_data hg2
    have hrd : r.data = '+' :: t := ht
    have hq1 : strStartsWith r "@@" = false := strStartsWith_false_head hrd rfl (by decide)
    have hq2 : strStartsWith r "diff --git " = false :=
      strStartsWith_false_head hrd rfl (by decide)
    have hcond : (strStartsWith r "@@" || strStartsWith r "diff --git ") = false := by
      rw [hq1, hq2]; rfl
    show parseHunkBody ((r :: raw) ++ [""]) accL accR = _
    rw [List.cons_append]
    simp only [parseHunkBody, hcond, Bool.false_eq_true, if_neg, not_false_iff, hg1, hg2,
      if_pos]
    rw [ih]
    simp [List.append_assoc]
  | remove r raw lines hg1 hg2 hg3 hrel ih =>
    intro accL accR
    obtain ⟨t, ht⟩ := strStartsWith_data hg3
    have hrd : r.data = '-' :: t := ht
    have hq1 : strStartsWith r "@@" = false := strStartsWith_false_head hrd rfl (by decide)
    have hq2 : strStartsWith r "diff --git " = false :=
      strStartsWith_false_head hrd rfl (by decide)
    have hcond : (strStartsWith r "@@" || strStartsWith r "diff --git ") = false := by
      rw [hq1, hq2]; rfl
    show parseHunkBody ((r :: raw) ++ [""]) accL accR = _
    rw [List.cons_append]
    simp only [parseHunkBody, hcond, Bool.false_eq_true, if_neg, not_false_iff, hg1, hg2,
      hg3, if_pos]
    rw [ih]
    simp [List.append_assoc]
  | context r raw lines hg1 hg2 hg3 hg4 hrel ih =>
    intro accL accR
    have hraw : ((raw ++ [""]).isEmpty) = false := by
      cases raw <;> rfl
    rcases hg4 with hsp | hemp
    · obtain ⟨t, ht⟩ := strStartsWith_data hsp
      have hrd : r.data = ' ' :: t := ht
      have hq1 : strStartsWith r "@@" = false := strStartsWith_false_head hrd rfl (by decide)
      have hq2 : strStartsWith r "diff --git " = false :=
        strStartsWith_false_head hrd rfl (by decide)
      have hcond : (strStartsWith r "@@" || strStartsWith r "diff --git ") = false := by
        rw [hq1, hq2]; rfl
      have hcond5 : (strStartsWith r " " || r = "") = true := by
        rw [hsp]; rfl
      have hne : ¬ r = "" := by
        intro hr
        rw [hr] at hrd
        exact absurd hrd (by simp [String.data])
      have hcond6 : (decide (r = "") && (raw ++ [""]).isEmpty) = false := by
        simp [hne]
      show parseHunkBody ((r :: raw) ++ [""]) accL accR = _
      rw [List.cons_append]
      simp only [parseHunkBody, hcond, Bool.false_eq_true, if_neg, not_false_iff, hg1, hg2,
        hg3, hcond5, if_pos, hcond6]
      rw [ih]
      simp [List.append_assoc]
    · subst hemp
      have hq1 : strStartsWith "" "@@" = false := rfl
      have hq2 : strStartsWith "" "diff --git " = false := rfl
      have hcond : (strStartsWith "" "@@" || strStartsWith "" "diff --git ") = false := rfl
      have hcond5 : (strStartsWith "" " " || ("" : String) = "") = true := by
        simp
      have hcond6 : (decide (("" : String) = "") && (raw ++ [""]).isEmpty) = false := by
        simp [hraw]
      show parseHunkBody (("" :: raw) ++ [""]) accL accR = _
      rw [List.cons_append]
      simp only [parseHunkBody, hcond, Bool.false_eq_true, if_neg, not_false_iff, hg1, hg2,
        hg3, hcond5, if_pos, hcond6]
      rw [ih]
      simp [List.append_assoc]

theorem parseHunk_spec (l : String) (rest : List String)
    (a c : Nat) (b d : Option Nat) (tr : String)
    (hm : matchHunkHeader l = some (a, b, c, d, tr)) :
    ∃ (k : Nat) (lb : List DiffLine),
      parseHunk (l :: rest) =
        (⟨(a : Int), ((b.getD 1 : Nat) : Int), (c : Int), ((d.getD 1 : Nat) : Int),
          l, lb, l :: rest.take k, none⟩, rest.drop k) ∧
      BodyRel (rest.take k) lb := by
  obtain ⟨k, lb, heq, hrel⟩ := parseHunkBody_spec rest [] [l]
  refine ⟨k, lb, ?_, hrel⟩
  simp only [parseHunk, hm, heq]
  rfl

theorem parseHunk_reparse (l : String) (body : List String) (lb : List DiffLine)
    (a c : Nat) (b d : Option Nat) (tr : String)
    (hm : matchHunkHeader l = some (a, b, c, d, tr))
    (hrel : BodyRel body lb) :
    parseHunk (l :: (body ++ [""])) =
      (⟨(a : Int), ((b.getD 1 : Nat) : Int), (c : Int), ((d.getD 1 : Nat) : Int),
        l, lb, l :: body, none⟩, [""]) := by
  simp only [parseHunk, hm, parseHunkBody_reparse body lb hrel [] [l]]
  rfl

theorem matchHunkHeader_data (l : String)
    (m : Nat × Option Nat × Nat × Option Nat × String)
    (hm : matchHunkHeader l = some m) :
    ∃ t, l.data = '@' :: '@' :: ' ' :: '-' :: t := by
  unfold matchHunkHeader at hm
  cases hs : stripPfx "@@ -".data l.data with
  | none => rw [hs] at hm; cases hm
  | some r1 =>
    unfold stripPfx at hs
    by_cases hp : "@@ -".data.isPrefixOf l.data
    · rcases List.isPrefixOf_iff_prefix.mp hp with ⟨t, ht⟩
      exact ⟨t, ht.symm⟩
    · rw [if_neg (by simpa using hp)] at hs
      cases hs

theorem matchHunkHeader_startsWith (l : String)
    (m : Nat × Option Nat × Nat × Option Nat × String)
    (hm : matchHunkHeader l = some m) :
    strStartsWith l "@@" = true ∧ strStartsWith l "diff --git " = false := by
  obtain ⟨t, ht⟩ := matchHunkHeader_data l m hm
  constructor
  · refine strStartsWith_of_prefix ⟨' ' :: '-' :: t, ?_⟩
    rw [ht]
    rfl
  · exact strStartsWith_false_head ht rfl (by decide)

theorem map_mk_map_data (M : List String) : (M.map String.data).map String.mk = M := by
  rw [List.map_map]
  exact List.map_id'' (fun x => rfl) M

theorem assembled_lines (P1 P2 l : String) (body : List String)
    (hP1 : noNl P1) (hP2 : noNl P2) (hl : noNl l) (hbody : ∀ x ∈ body, noNl x) :
    jsSplitLines ("diff --git a/x b/y\n" ++
        String.mk (joinNlData (("--- a/" ++ P1) :: ("+++ b/" ++ P2) :: l :: body) ++ ['\n'])) =
      "diff --git a/x b/y" :: ("--- a/" ++ P1) :: ("+++ b/" ++ P2) :: l :: (body ++ [""]) := by
  have hl1 : noNl ("--- a/" ++ P1) := by
    unfold noNl
    rw [String.data_append]
    intro hmem
    rcases List.mem_append.mp hmem with h | h
    · exact absurd h (by decide)
    · exact hP1 h
  have hl2 : noNl ("+++ b/" ++ P2) := by
    unfold noNl
    rw [String.data_append]
    intro hmem
    rcases List.mem_append.mp hmem with h | h
    · exact absurd h (by decide)
    · exact hP2 h
  have hall : ∀ x ∈ ("--- a/" ++ P1) :: ("+++ b/" ++ P2) :: l :: body, noNl x := by
    intro x hx
    rcases List.mem_cons.mp hx with rfl | hx
    · exact hl1
    rcases List.mem_cons.mp hx with rfl | hx
    · exact hl2
    rcases List.mem_cons.mp hx with rfl | hx
    · exact hl
    · exact hbody x hx
  unfold jsSplitLines
  have hdata : ("diff --git a/x b/y\n" ++
      String.mk (joinNlData (("--- a/" ++ P1) :: ("+++ b/" ++ P2) :: l :: body) ++ ['\n'])).data
      = "diff --git a/x b/y".data ++ '\n' ::
        (joinNlData (("--- a/" ++ P1) :: ("+++ b/" ++ P2) :: l :: body) ++ ['\n']) := by
    rw [String.data_append]
    have h1 : ("diff --git a/x b/y\n" : String).data =
        ("diff --git a/x b/y" : String).data ++ ['\n'] := rfl
    rw [h1, List.append_assoc]
    rfl
  rw [hdata, splitNl_append_nl _ (by decide),
    joinNl_split _ (by simp) hall]
  rw [List.map_cons, List.map_append, map_mk_map_data]
  rfl

theorem parseFileHunks_one (fuel : Nat) (l : String) (body : List String) (lb : List DiffLine)
    (a c : Nat) (b d : Option Nat) (tr : String)
    (hm : matchHunkHeader l = some (a, b, c, d, tr))
    (hrel : BodyRel body lb) (hfuel : 2 ≤ fuel) :
    parseFileHunks fuel (l :: (body ++ [""])) =
      ([⟨(a : Int), ((b.getD 1 : Nat) : Int), (c : Int), ((d.getD 1 : Nat) : Int),
        l, lb, l :: body, none⟩], []) := by
  obtain ⟨hat, hdg⟩ := matchHunkHeader_startsWith l _ hm
  obtain ⟨f2, rfl⟩ : ∃ f2, fuel = f2 + 1 + 1 := ⟨fuel - 2, by omega⟩
  have h1 : strStartsWith "" "diff --git " = false := rfl
  have h2 : strStartsWith "" "@@" = false := rfl
  simp only [parseFileHunks, hdg, Bool.false_eq_true, if_neg, not_false_iff, hat, if_pos,
    parseHunk_reparse l body lb a c b d tr hm hrel, h1, h2]

theorem parseDiffLoop_assembled (fuel : Nat) (P1 P2 l : String) (body : List String)
    (lb : List DiffLine) (a c : Nat) (b d : Option Nat) (tr : String)
    (hm : matchHunkHeader l = some (a, b, c, d, tr))
    (hrel : BodyRel body lb) (hfuel : 4 ≤ fuel) :
    parseDiffLoop fuel ("diff --git a/x b/y" :: ("--- a/" ++ P1) ::
        ("+++ b/" ++ P2) :: l :: (body ++ [""])) =
      [⟨strDrop ("--- a/" ++ P1) 6, strDrop ("+++ b/" ++ P2) 6,
        [⟨(a : Int), ((b.getD 1 : Nat) : Int), (c : Int), ((d.getD 1 : Nat) : Int),
          l, lb, l :: body, none⟩], false,
        [("--- a/" ++ P1), ("+++ b/" ++ P2)]⟩] := by
  have hl1d : ("--- a/" ++ P1).data = '-' :: ('-' :: '-' :: ' ' :: 'a' :: '/' :: P1.data) := by
    rw [String.data_append]
    rfl
  have hl2d : ("+++ b/" ++ P2).data = '+' :: ('+' :: '+' :: ' ' :: 'b' :: '/' :: P2.data) := by
    rw [String.data_append]
    rfl
  have hc1 : strStartsWith ("--- a/" ++ P1) "diff --git " = false :=
    strStartsWith_false_head hl1d rfl (by decide)
  have hc2 : strStartsWith ("--- a/" ++ P1) "---" = true := by
    refine strStartsWith_of_prefix ⟨' ' :: 'a' :: '/' :: P1.data, ?_⟩
    rw [hl1d]
    rfl
  have hcb : strStartsWith ("--- a/" ++ P1) "Binary" = false :=
    strStartsWith_false_head hl1d rfl (by decide)
  have hc3 : strStartsWith ("--- a/" ++ P1) "--- a/" = true := by
    refine strStartsWith_of_prefix ⟨P1.data, ?_⟩
    rw [hl1d]
    rfl
  have hc4 : strStartsWith ("+++ b/" ++ P2) "+++" = true := by
    refine strStartsWith_of_prefix ⟨' ' :: 'b' :: '/' :: P2.data, ?_⟩
    rw [hl2d]
    rfl
  have hc5 : strStartsWith ("+++ b/" ++ P2) "+++ b/" = true := by
    refine strStartsWith_of_prefix ⟨P2.data, ?_⟩
    rw [hl2d]
    rfl
  obtain ⟨f1, rfl⟩ : ∃ f1, fuel = f1 + 1 := ⟨fuel - 1, by omega⟩
  rw [parseDiffLoop, if_pos (by decide)]
  have hskip : skipExtHeaders "diff --git a/x b/y"
      (("--- a/" ++ P1) :: ("+++ b/" ++ P2) :: l :: (body ++ [""])) =
      ("diff --git a/x b/y", ("--- a/" ++ P1) :: ("+++ b/" ++ P2) :: l :: (body ++ [""])) := by
    rw [skipExtHeaders, if_pos (by rw [hc1, hc2]; rfl)]
  have hfile : parseDiffFile f1 "diff --git a/x b/y"
      (("--- a/" ++ P1) :: ("+++ b/" ++ P2) :: l :: (body ++ [""])) =
      (⟨strDrop ("--- a/" ++ P1) 6, strDrop ("+++ b/" ++ P2) 6,
        [⟨(a : Int), ((b.getD 1 : Nat) : Int), (c : Int), ((d.getD 1 : Nat) : Int),
          l, lb, l :: body, none⟩], false,
        [("--- a/" ++ P1), ("+++ b/" ++ P2)]⟩, []) := by
    unfold parseDiffFile
    rw [hskip]
    simp only [hcb, Bool.false_eq_true, if_neg, not_false_iff, hc2, if_pos, hc3, hc4, hc5,
      parseFileHunks_one f1 l body lb a c b d tr hm hrel (by omega)]
    rfl
  rw [hfile]
  have hempty : parseDiffLoop f1 [] = [] := by
    cases f1 <;> rfl
  dsimp only
  rw [hempty]

/-- Claim C3, counterexample to the claim as stated: the hunk parsed from
a well-formed diff, reassembled by `buildPatch` (`---` line, `+++` line,
`rawLines`, trailing newline) and fed to `parseDiff` alone, yields NO
file at all — `parseDiff` only recognises sections introduced by a
`diff --git ` marker line, which `buildPatch` does not emit. -/
theorem C3_counterexample :
    parseDiff "diff --git a/f.txt b/f.txt\n--- a/f.txt\n+++ b/f.txt\n@@ -1 +1 @@\n-x\n+y\n" =
      [⟨"f.txt", "f.txt",
        [⟨1, 1, 1, 1, "@@ -1 +1 @@", [⟨.remove, "x"⟩, ⟨.add, "y"⟩],
          ["@@ -1 +1 @@", "-x", "+y"], none⟩], false,
        ["--- a/f.txt", "+++ b/f.txt"]⟩] ∧
    parseDiff (buildPatch
      ⟨"f.txt", "f.txt",
        [⟨1, 1, 1, 1, "@@ -1 +1 @@", [⟨.remove, "x"⟩, ⟨.add, "y"⟩],
          ["@@ -1 +1 @@", "-x", "+y"], none⟩], false,
        ["--- a/f.txt", "+++ b/f.txt"]⟩
      ⟨1, 1, 1, 1, "@@ -1 +1 @@", [⟨.remove, "x"⟩, ⟨.add, "y"⟩],
        ["@@ -1 +1 @@", "-x", "+y"], none⟩) = [] := by
  constructor
  · decide
  · decide

/-- Claim C3 as amended: prepending a `diff --git ` marker line to the
`buildPatch` output, `parseDiff` on that patch text yields exactly one
file containing exactly one hunk whose `lines` content equals the
original hunk's `lines` content, for every hunk produced by `parseHunk`
from a successfully matched header (the lines being newline-free, as all
lines produced by splitting diff text are). -/
theorem C3_roundtrip_with_marker (file : DiffFile) (l : String) (rest : List String)
    (a c : Nat) (b d : Option Nat) (tr : String)
    (hm : matchHunkHeader l = some (a, b, c, d, tr))
    (hl : noNl l) (hrest : ∀ r ∈ rest, noNl r)
    (hop : noNl file.oldPath) (hnp : noNl file.newPath) :
    ∃ f', parseDiff ("diff --git a/x b/y\n" ++
        buildPatch file (parseHunk (l :: rest)).1) = [f'] ∧
      ∃ h', f'.hunks = [h'] ∧ h'.lines = (parseHunk (l :: rest)).1.lines := by
  obtain ⟨k, lb, heq, hrel⟩ := parseHunk_spec l rest a c b d tr hm
  have hh : (parseHunk (l :: rest)).1 =
      ⟨(a : Int), ((b.getD 1 : Nat) : Int), (c : Int), ((d.getD 1 : Nat) : Int),
        l, lb, l :: rest.take k, none⟩ := by rw [heq]
  have hP1 : noNl (if file.oldPath = "" then file.newPath else file.oldPath) := by
    by_cases h0 : file.oldPath = "" <;> simp [h0, hop, hnp]
  have hP2 : noNl (if file.newPath = "" then file.oldPath else file.newPath) := by
    by_cases h0 : file.newPath = "" <;> simp [h0, hop, hnp]
  have hbp : buildPatch file (parseHunk (l :: rest)).1 =
      String.mk (joinNlData
        (("--- a/" ++ (if file.oldPath = "" then file.newPath else file.oldPath)) ::
         ("+++ b/" ++ (if file.newPath = "" then file.oldPath else file.newPath)) ::
         (l :: rest.take k)) ++ ['\n']) := by
    rw [hh]
    rfl
  have hbody : ∀ x ∈ rest.take k, noNl x := fun x hx => hrest x (List.mem_of_mem_take hx)
  have hlines := assembled_lines
    (if file.oldPath = "" then file.newPath else file.oldPath)
    (if file.newPath = "" then file.oldPath else file.newPath)
    l (rest.take k) hP1 hP2 hl hbody
  have hmain : parseDiff ("diff --git a/x b/y\n" ++
      buildPatch file (parseHunk (l :: rest)).1) =
      [⟨strDrop ("--- a/" ++ (if file.oldPath = "" then file.newPath else file.oldPath)) 6,
        strDrop ("+++ b/" ++ (if file.newPath = "" then file.oldPath else file.newPath)) 6,
        [⟨(a : Int), ((b.getD 1 : Nat) : Int), (c : Int), ((d.getD 1 : Nat) : Int),
          l, lb, l :: rest.take k, none⟩], false,
        [("--- a/" ++ (if file.oldPath = "" then file.newPath else file.oldPath)),
         ("+++ b/" ++ (if file.newPath = "" then file.oldPath else file.newPath))]⟩] := by
    unfold parseDiff
    rw [hbp, hlines]
    refine parseDiffLoop_assembled _ _ _ l (rest.take k) lb a c b d tr hm hrel ?_
    simp [List.length_append]
  exact ⟨_, hmain, ⟨(a : Int), ((b.getD 1 : Nat) : Int), (c : Int), ((d.getD 1 : Nat) : Int),
    l, lb, l :: rest.take k, none⟩, rfl, by rw [hh]⟩

/-- Witness for the amended C3 at a concrete hunk `-x`/`+y`. -/
theorem C3_witness :
    matchHunkHeader "@@ -1 +1 @@" = some (1, none, 1, none, "") ∧
    (∃ f', parseDiff ("diff --git a/x b/y\n" ++
        buildPatch (⟨"f.txt", "f.txt", [], false, []⟩ : DiffFile)
          (parseHunk ("@@ -1 +1 @@" :: ["-x", "+y"])).1) = [f'] ∧
      ∃ h', f'.hunks = [h'] ∧
        h'.lines = (parseHunk ("@@ -1 +1 @@" :: ["-x", "+y"])).1.lines) := by
  refine ⟨by decide, ?_⟩
  exact C3_roundtrip_with_marker ⟨"f.txt", "f.txt", [], false, []⟩ "@@ -1 +1 @@"
    ["-x", "+y"] 1 1 none none "" (by decide) (by unfold noNl; decide)
    (by intro r hr; unfold noNl; fin_cases hr <;> decide)
    (by unfold noNl; decide) (by unfold noNl; decide)
